import Mathlib

/-!
Verification of the GST login automation tool (`GST_Easy_Login.py`).

The account store and the login orchestrator are shallowly embedded:
strings are `List Char`, the `.env` file is the list of lines returned by
`readlines()` (each line keeps its trailing newline, and contains no
interior newline — an invariant of `readlines`), and the Selenium-driven
login attempt is a function of a simulated driver in which a fault can be
injected at each automation step.

Python's `str.upper`/`str.lower` are modelled on the ASCII range, and the
`\d` of the scanning regex is modelled as the ASCII digits, which is how
the program's own key families are written.
-/

namespace GstLogin

/-- Strings of the embedded program: Python `str` as a list of characters. -/
abbrev Chars := List Char

/-- The characters removed by Python `str.strip()` (ASCII whitespace). -/
def isPySpace (c : Char) : Bool :=
  c == ' ' || c == '\t' || c == '\n' || c == '\x0d' || c == '\x0b' || c == '\x0c'

/-- ASCII uppercase conversion: the model of Python `str.upper` per character. -/
def upChar (c : Char) : Char :=
  if 97 ≤ c.toNat ∧ c.toNat ≤ 122 then Char.ofNat (c.toNat - 32) else c

/-- ASCII lowercase conversion: the model of Python `str.lower` per character. -/
def loChar (c : Char) : Char :=
  if 65 ≤ c.toNat ∧ c.toNat ≤ 90 then Char.ofNat (c.toNat + 32) else c

/-- Model of `s.upper()`. -/
def upperAll (l : Chars) : Chars := l.map upChar

/-- Model of `s.lower()`. -/
def lowerAll (l : Chars) : Chars := l.map loChar

/-- Model of `s.replace(" ", "")`: removes every space character (only spaces). -/
def removeSpaces (l : Chars) : Chars := l.filter (fun c => c != ' ')

/-- Model of `s.strip()`: drops leading and trailing whitespace. -/
def stripList (l : Chars) : Chars :=
  ((l.dropWhile isPySpace).reverse.dropWhile isPySpace).reverse

/-- Model of `s.strip('"')`: drops leading and trailing double quotes. -/
def stripQuotes (l : Chars) : Chars :=
  ((l.dropWhile (fun c => c == '"')).reverse.dropWhile (fun c => c == '"')).reverse

/-- ASCII digit test: the model of the regex `\d` on the program's key space. -/
def isDigitCh (c : Char) : Bool := decide (48 ≤ c.toNat ∧ c.toNat ≤ 57)

/-- Value of a digit string, as computed by Python `int` on ASCII digits. -/
def digitsToNat (l : Chars) : Nat :=
  l.foldl (fun n c => 10 * n + (c.toNat - 48)) 0

/-- The ASCII digit character for `k < 10`. -/
def digitCh (k : Nat) : Char := Char.ofNat (48 + k)

/-- Decimal digits of `n`, most significant first (fuel-based recursion). -/
def natDigitsCore : Nat → Nat → Chars
  | 0, _ => []
  | fuel + 1, n =>
    if n = 0 then [] else natDigitsCore fuel (n / 10) ++ [digitCh (n % 10)]

/-- Model of Python `str(n)` for a natural number `n`. -/
def natToDigits (n : Nat) : Chars :=
  if n = 0 then ['0'] else natDigitsCore n n

/-- `hasPref p l` is true when `p` is an initial segment of `l`
(the model of `str.startswith`). -/
def hasPref : Chars → Chars → Bool
  | [], _ => true
  | _ :: _, [] => false
  | p :: ps, c :: cs => p == c && hasPref ps cs

/-- `dropPref p l` returns the remainder of `l` after the initial segment `p`,
if `p` is indeed an initial segment. -/
def dropPref : Chars → Chars → Option Chars
  | [], l => some l
  | _ :: _, [] => none
  | p :: ps, c :: cs => if p = c then dropPref ps cs else none

/-- `hasSub pat l` is true when `pat` occurs contiguously inside `l`
(the model of Python's `in` on strings). -/
def hasSub (pat : Chars) : Chars → Bool
  | [] => pat == []
  | c :: cs => hasPref pat (c :: cs) || hasSub pat cs

/-- `TRADE_NAME_PREFIX = "Trade_Name_"`. -/
def tradeStem : Chars := "Trade_Name_".data

/-- `USER_ID_PREFIX = "GST_UserID_"`. -/
def userStem : Chars := "GST_UserID_".data

/-- `PASSWORD_PREFIX = "GST_PSSWD_"`. -/
def passStem : Chars := "GST_PSSWD_".data

/-- Model of `re.match(rf"^{TRADE_NAME_PREFIX}(\d+)=(.*)$", line)` applied to a
stripped line: the index (as parsed by `int`) and the raw value text.
Greedy `\d+` followed by a literal `=` is equivalent to taking the maximal
digit run and requiring the next character to be `=`. -/
def parseTradeLine (l : Chars) : Option (Nat × Chars) :=
  match dropPref tradeStem l with
  | none => none
  | some rest =>
    let ds := rest.takeWhile isDigitCh
    if ds = [] then none
    else
      match rest.dropWhile isDigitCh with
      | '=' :: value => some (digitsToNat ds, value)
      | _ => none

/-- Normalization applied to a trade-name value read from the `.env` file:
`match.group(2).strip().strip('"').replace(" ", "").upper()`. -/
def normalizeStored (v : Chars) : Chars :=
  upperAll (removeSpaces (stripQuotes (stripList v)))

/-- Normalization applied to an interactively entered trade name:
`input(...).strip()` followed by `.replace(" ", "").upper()`. -/
def normalizeInput (s : Chars) : Chars :=
  upperAll (removeSpaces (stripList s))

/-- The trade-name → index mapping, modelling the Python `dict` built by
`get_account_mapping`: an association list with at most one entry per key,
kept in insertion order. Lookup returns the entry's value. -/
def lookupA : List (Chars × Nat) → Chars → Option Nat
  | [], _ => none
  | (k', v) :: rest, k => if k' = k then some v else lookupA rest k

/-- `d[k] = v` on the association-list model of a Python `dict`: replaces the
value in place when the key is present, appends otherwise. -/
def insertA (m : List (Chars × Nat)) (k : Chars) (v : Nat) : List (Chars × Nat) :=
  if (lookupA m k).isSome then
    m.map (fun p => if p.1 = k then (k, v) else p)
  else
    m ++ [(k, v)]

/-- One iteration of the scanning loop of `get_account_mapping`: strip the
line, try the trade-name regex, record the mapping entry and raise the
running highest index. -/
def scanStep (st : List (Chars × Nat) × Nat) (line : Chars) : List (Chars × Nat) × Nat :=
  match parseTradeLine (stripList line) with
  | some (i, v) => (insertA st.1 (normalizeStored v) i, max st.2 i)
  | none => st

/-- `get_account_mapping()`: scans the file's lines and returns the
trade-name → index mapping together with the next available index
(`highest_index + 1`, where `highest_index` starts at `0`). -/
def get_account_mapping (lines : List Chars) : List (Chars × Nat) × Nat :=
  let st := lines.foldl scanStep ([], 0)
  (st.1, st.2 + 1)

/-- The indices of all well-formed `Trade_Name_<i>` lines of the file, in
file order. -/
def tradeIndices (lines : List Chars) : List Nat :=
  lines.filterMap (fun l => (parseTradeLine (stripList l)).map Prod.fst)

/-- `list_all_accounts()`: the mapping's records sorted by ascending index. -/
def insertByIdx (x : Chars × Nat) : List (Chars × Nat) → List (Chars × Nat)
  | [] => [x]
  | y :: rest => if y.2 ≤ x.2 then y :: insertByIdx x rest else x :: y :: rest

/-- The record sequence displayed by `list_all_accounts`, sorted by index. -/
def list_all_accounts (lines : List Chars) : List (Chars × Nat) :=
  (get_account_mapping lines).1.foldr insertByIdx []

/-- The trade-name resolution performed by `perform_gst_login` (and shared by
the update flow): normalize the entered name and look it up in the scanned
mapping. -/
def resolveName (lines : List Chars) (input : Chars) : Option Nat :=
  lookupA (get_account_mapping lines).1 (normalizeInput input)

/-- The line written by `update_env_variable` for a key/value pair:
`f"{key}=\"{new_value}\"\n"`. -/
def envLine (key value : Chars) : Chars :=
  key ++ '=' :: '"' :: value ++ ['"', '\n']

/-- The replacement criterion of `update_env_variable`:
`line.strip().startswith(f"{key}=")`. -/
def matchesKey (key line : Chars) : Bool :=
  hasPref (key ++ ['=']) (stripList line)

/-- One iteration of the rewriting loop of `update_env_variable`. -/
def updStep (key value : Chars) (acc : List Chars × Bool) (line : Chars) : List Chars × Bool :=
  if matchesKey key line then (acc.1 ++ [envLine key value], true)
  else (acc.1 ++ [line], acc.2)

/-- `update_env_variable(key, new_value)` on the file's lines: every line whose
stripped form starts with `key=` is replaced in place by the canonical line;
if no line matched, the canonical line is appended. (The `os.environ`
side effect is not part of the file state.) -/
def update_env_variable (key value : Chars) (lines : List Chars) : List Chars :=
  let r := lines.foldl (updStep key value) ([], false)
  if r.2 then r.1 else r.1 ++ [envLine key value]

/-- The key of a `KEY=...` line: the text of the stripped line before its first
`=`, when the line contains an `=` at all. Lines without `=` carry no key. -/
def lineKeyOf (line : Chars) : Option Chars :=
  if (stripList line).any (fun c => c == '=') then
    some ((stripList line).takeWhile (fun c => c != '='))
  else none

/-- The subsequence of lines carrying a given key, in file order. -/
def keyLines (k : Chars) (lines : List Chars) : List Chars :=
  lines.filter (fun l => decide (lineKeyOf l = some k))

/-- The interactive inputs consumed by `add_new_account`: the trade name, the
answer to the overwrite prompt, the username and the password. Each comes
from `input()` and therefore contains no newline. -/
structure AddInput where
  tradeName : Chars
  confirm : Chars
  username : Chars
  password : Chars

/-- The index selection of `add_new_account` (lines 127–137): an existing
normalized name's index is reused only after a `yes` answer to the overwrite
prompt; a new name takes the next available index. -/
def chooseIdx (inp : AddInput) (st : List (Chars × Nat) × Nat) (norm : Chars) : Option Nat :=
  match lookupA st.1 norm with
  | some i => if lowerAll (stripList inp.confirm) = "yes".data then some i else none
  | none => some st.2

/-- `add_new_account()`: scans the store, validates the stripped trade name,
reuses the existing index of an already-present normalized name (after a
`yes` confirmation) or allocates the next available index, validates the
credentials, and writes the three keyed fields. Returns the resulting file
lines together with the index used (`none` when the operation aborted
without writing). -/
def add_new_account (inp : AddInput) (lines : List Chars) : List Chars × Option Nat :=
  let st := get_account_mapping lines
  let name := stripList inp.tradeName
  if name = [] then (lines, none)
  else
    let norm := upperAll (removeSpaces name)
    match chooseIdx inp st norm with
    | none => (lines, none)
    | some i =>
      if stripList inp.username = [] ∨ stripList inp.password = [] then (lines, none)
      else
        let l1 := update_env_variable (tradeStem ++ natToDigits i) name lines
        let l2 := update_env_variable (userStem ++ natToDigits i) (stripList inp.username) l1
        let l3 := update_env_variable (passStem ++ natToDigits i) (stripList inp.password) l2
        (l3, some i)

/-- The interactive inputs consumed by `update_existing_account`. -/
structure UpdInput where
  accountName : Chars
  newUsername : Chars
  newPassword : Chars

/-- `update_existing_account()`: resolves the entered trade name, then writes
the username and/or password fields of that index for whichever of the two
new values is non-blank after stripping, leaving the file untouched
otherwise. -/
def update_existing_account (inp : UpdInput) (lines : List Chars) : List Chars :=
  let st := get_account_mapping lines
  if st.1 = [] then lines
  else
    match lookupA st.1 (normalizeInput inp.accountName) with
    | none => lines
    | some i =>
      let u := stripList inp.newUsername
      let p := stripList inp.newPassword
      let l1 := if u ≠ [] then update_env_variable (userStem ++ natToDigits i) u lines else lines
      let l2 := if p ≠ [] then update_env_variable (passStem ++ natToDigits i) p l1 else l1
      l2

/-! ## The login attempt

`perform_gst_login`'s automation sequence for one selected account with
present credentials (lines 322–373 of the source). The browser session is
simulated: a fault can be injected at any automation step, and the
post-submit location and the optional on-page error element are given in
advance. The step `navigate` is `driver.get(url)` at line 326, which the
source runs *before* entering the `try:` block of line 328; every later
step runs inside that `try`. -/

/-- The automation steps of one login attempt, in execution order. -/
inductive LStep
  | navigate
  | findUser
  | sendUser
  | findPass
  | sendPass
  | waitCaptcha
  | sendCaptcha
  | findButton
  | clickButton
deriving DecidableEq

/-- The simulated browser session. `faultAt` injects an exception at the given
step; `currentUrl` is the location after submit; `errorElem` is the on-page
error-message element, when present. -/
structure SimDriver where
  faultAt : Option LStep
  currentUrl : Chars
  errorElem : Option Chars

/-- How one attempt ends: successful login, post-submit classification as a
failure, an exception caught by the `except` clause, or an exception that
propagates out of `perform_gst_login` (crashing the process). -/
inductive AttemptOutcome
  | success
  | classifiedFailure
  | caughtExn
  | propagatedExn
deriving DecidableEq

/-- The observable result of one attempt: its outcome, the number of times
`driver.quit()` ran, and the messages printed for this attempt. -/
structure AttemptResult where
  outcome : AttemptOutcome
  quitCount : Nat
  messages : List Chars
deriving DecidableEq

/-- Executing one automation step on the simulated session: raises the
injected fault when it is scheduled at this step. -/
def runStep (d : SimDriver) (s : LStep) : Except Unit Unit :=
  if d.faultAt = some s then Except.error () else Except.ok ()

/-- The body of the `try:` block (lines 329–352): locate and fill the
username, password and CAPTCHA fields, click the login button, and report
whether the resulting location matches a post-login marker. -/
def tryBody (d : SimDriver) : Except Unit Bool := do
  runStep d LStep.findUser
  runStep d LStep.sendUser
  runStep d LStep.findPass
  runStep d LStep.sendPass
  runStep d LStep.waitCaptcha
  runStep d LStep.sendCaptcha
  runStep d LStep.findButton
  runStep d LStep.clickButton
  pure (hasSub "dashboard".data d.currentUrl || hasSub "home".data d.currentUrl ||
        hasSub "loggedin".data d.currentUrl)

/-- One login attempt for an account whose credentials are present
(lines 323–373): construct the driver, navigate (outside the `try`), run the
`try` body, classify, catch exceptions with account attribution, and run the
`finally` clause, which quits the driver when it is non-`None`. -/
def perform_login_attempt (accountName : Chars) (d : SimDriver) : AttemptResult :=
  match runStep d LStep.navigate with
  | Except.error _ =>
    { outcome := AttemptOutcome.propagatedExn, quitCount := 0, messages := [] }
  | Except.ok _ =>
    match tryBody d with
    | Except.error _ =>
      { outcome := AttemptOutcome.caughtExn, quitCount := 1,
        messages := ["An error occurred during login for account ".data ++ accountName ++
                     ": <exception>".data] }
    | Except.ok true =>
      { outcome := AttemptOutcome.success, quitCount := 1,
        messages := ["Successfully logged in with account: ".data ++ accountName] }
    | Except.ok false =>
      { outcome := AttemptOutcome.classifiedFailure, quitCount := 1,
        messages :=
          ("Login failed for account: ".data ++ accountName) ::
          ((match d.errorElem with
            | some t => ["Error message: ".data ++ t]
            | none => []) ++
           ["Please check the credentials, CAPTCHA, or the GST portal status and try again.".data]) }

/-! ## Character-level lemmas -/

/-- Characters with distinct code points are distinct. -/
theorem char_ne_of_toNat_ne {c x : Char} (h : c.toNat ≠ x.toNat) : c ≠ x :=
  fun he => h (he ▸ rfl)

/-- No character with code point at least 33 is Python whitespace. -/
theorem isPySpace_false_of_toNat {c : Char} (h : 33 ≤ c.toNat) : isPySpace c = false := by
  have w1 : (' ' : Char).toNat = 32 := by decide
  have w2 : ('\t' : Char).toNat = 9 := by decide
  have w3 : ('\n' : Char).toNat = 10 := by decide
  have w4 : ('\x0d' : Char).toNat = 13 := by decide
  have w5 : ('\x0b' : Char).toNat = 11 := by decide
  have w6 : ('\x0c' : Char).toNat = 12 := by decide
  unfold isPySpace
  rw [beq_eq_false_iff_ne.mpr (char_ne_of_toNat_ne (by omega)),
      beq_eq_false_iff_ne.mpr (char_ne_of_toNat_ne (by omega)),
      beq_eq_false_iff_ne.mpr (char_ne_of_toNat_ne (by omega)),
      beq_eq_false_iff_ne.mpr (char_ne_of_toNat_ne (by omega)),
      beq_eq_false_iff_ne.mpr (char_ne_of_toNat_ne (by omega)),
      beq_eq_false_iff_ne.mpr (char_ne_of_toNat_ne (by omega))]
  rfl

/-- `upChar` maps a character to the space character only if it was the space
character. -/
theorem upChar_eq_space_iff (c : Char) : upChar c = ' ' ↔ c = ' ' := by
  unfold upChar
  split
  · rename_i h
    obtain ⟨h1, h2⟩ := h
    constructor
    · intro he
      exfalso
      revert he
      generalize c.toNat = m at h1 h2
      interval_cases m <;> decide
    · intro he
      subst he
      exact absurd h1 (by decide)
  · exact Iff.rfl

/-- ASCII uppercasing is idempotent. -/
theorem upChar_upChar (c : Char) : upChar (upChar c) = upChar c := by
  by_cases h : 97 ≤ c.toNat ∧ c.toNat ≤ 122
  · obtain ⟨h1, h2⟩ := h
    have hc : upChar c = Char.ofNat (c.toNat - 32) := by
      unfold upChar
      rw [if_pos ⟨h1, h2⟩]
    rw [hc]
    generalize c.toNat = m at h1 h2
    interval_cases m <;> decide
  · have hc : upChar c = c := by
      unfold upChar
      rw [if_neg h]
    rw [hc, hc]

/-- `upChar` neither creates nor destroys Python whitespace. -/
theorem isPySpace_upChar (c : Char) : isPySpace (upChar c) = isPySpace c := by
  by_cases h : 97 ≤ c.toNat ∧ c.toNat ≤ 122
  · obtain ⟨h1, h2⟩ := h
    have hc : upChar c = Char.ofNat (c.toNat - 32) := by
      unfold upChar
      rw [if_pos ⟨h1, h2⟩]
    have hr : isPySpace c = false := isPySpace_false_of_toNat (by omega)
    rw [hc, hr]
    generalize c.toNat = m at h1 h2
    interval_cases m <;> decide
  · have hc : upChar c = c := by
      unfold upChar
      rw [if_neg h]
    rw [hc]

/-! ## List-level helper lemmas -/

/-- `dropWhile` is the identity when the head already fails the predicate. -/
theorem dropWhile_eq_self_of_head {α : Type} {p : α → Bool} {l : List α}
    (h : ∀ c, l.head? = some c → p c = false) : l.dropWhile p = l := by
  cases l with
  | nil => rfl
  | cons a t =>
    have : p a = false := h a rfl
    rw [List.dropWhile_cons_of_neg (by simp [this])]

/-- The head of a `dropWhile` result fails the predicate. -/
theorem head_dropWhile_false {α : Type} {p : α → Bool} {l : List α} {c : α}
    (h : (l.dropWhile p).head? = some c) : p c = false := by
  induction l with
  | nil => simp [List.dropWhile] at h
  | cons a t ih =>
    by_cases hp : p a
    · rw [List.dropWhile_cons_of_pos hp] at h
      exact ih h
    · rw [List.dropWhile_cons_of_neg hp] at h
      simp at h
      subst h
      simpa using hp

/-- A nonempty `dropWhile` result keeps the original last element. -/
theorem getLast_dropWhile {α : Type} {p : α → Bool} {l : List α}
    (h : l.dropWhile p ≠ []) : (l.dropWhile p).getLast? = l.getLast? := by
  induction l with
  | nil => simp [List.dropWhile]
  | cons a t ih =>
    by_cases hp : p a
    · rw [List.dropWhile_cons_of_pos hp] at h ⊢
      cases t with
      | nil => simp [List.dropWhile] at h
      | cons b u => rw [ih h, List.getLast?_cons_cons]
    · rw [List.dropWhile_cons_of_neg hp]

/-- The head of a stripped string is not whitespace. -/
theorem stripList_head_false {l : Chars} {c : Char}
    (h : (stripList l).head? = some c) : isPySpace c = false := by
  unfold stripList at h
  rw [List.head?_reverse] at h
  have hne : (l.dropWhile isPySpace).reverse.dropWhile isPySpace ≠ [] := by
    intro he
    rw [he] at h
    simp at h
  rw [getLast_dropWhile hne, List.getLast?_reverse] at h
  exact head_dropWhile_false h

/-- The last character of a stripped string is not whitespace. -/
theorem stripList_getLast_false {l : Chars} {c : Char}
    (h : (stripList l).getLast? = some c) : isPySpace c = false := by
  unfold stripList at h
  rw [List.getLast?_reverse] at h
  exact head_dropWhile_false h

/-- Stripping a string whose two ends are not whitespace changes nothing. -/
theorem stripList_eq_self {l : Chars}
    (h1 : ∀ c, l.head? = some c → isPySpace c = false)
    (h2 : ∀ c, l.getLast? = some c → isPySpace c = false) :
    stripList l = l := by
  unfold stripList
  rw [dropWhile_eq_self_of_head h1]
  rw [dropWhile_eq_self_of_head (fun c hc => h2 c (by rwa [List.head?_reverse] at hc))]
  exact List.reverse_reverse l

/-- Stripping is idempotent. -/
theorem stripList_stripList (l : Chars) : stripList (stripList l) = stripList l :=
  stripList_eq_self (fun _ h => stripList_head_false h) (fun _ h => stripList_getLast_false h)

/-- Stripping a line that starts at a non-whitespace character and ends in a
non-whitespace character followed by the newline just removes the newline. -/
theorem stripList_append_newline {l : Chars} {c d : Char}
    (hh : l.head? = some c) (hc : isPySpace c = false)
    (hl : l.getLast? = some d) (hd : isPySpace d = false) :
    stripList (l ++ ['\n']) = l := by
  unfold stripList
  have h1 : List.dropWhile isPySpace (l ++ ['\n']) = l ++ ['\n'] := by
    apply dropWhile_eq_self_of_head
    intro x hx
    cases l with
    | nil => simp at hh
    | cons a t =>
      simp at hh hx
      rw [hx] at hh
      rw [hh]
      exact hc
  rw [h1]
  have h2 : (l ++ ['\n']).reverse = '\n' :: l.reverse := by simp
  rw [h2, List.dropWhile_cons_of_pos (by decide)]
  have h3 : List.dropWhile isPySpace l.reverse = l.reverse := by
    apply dropWhile_eq_self_of_head
    intro x hx
    rw [List.head?_reverse, hl] at hx
    cases hx
    exact hd
  rw [h3, List.reverse_reverse]

/-- `hasPref p l` holds exactly when `l` extends `p`. -/
theorem hasPref_iff {p l : Chars} : hasPref p l = true ↔ ∃ r, l = p ++ r := by
  induction p generalizing l with
  | nil => simp [hasPref]
  | cons a ps ih =>
    cases l with
    | nil => simp [hasPref]
    | cons c cs =>
      simp only [hasPref, Bool.and_eq_true, beq_iff_eq, ih, List.cons_append,
        List.cons.injEq]
      constructor
      · rintro ⟨rfl, r, rfl⟩
        exact ⟨r, rfl, rfl⟩
      · rintro ⟨r, rfl, rfl⟩
        exact ⟨rfl, r, rfl⟩

/-- A pattern is a prefix of itself followed by anything. -/
theorem hasPref_append (p r : Chars) : hasPref p (p ++ r) = true :=
  hasPref_iff.mpr ⟨r, rfl⟩

/-- `dropPref` recognizes exactly the extensions of the pattern. -/
theorem dropPref_append (p r : Chars) : dropPref p (p ++ r) = some r := by
  induction p with
  | nil => rfl
  | cons a ps ih => simp [dropPref, ih]

/-- `dropPref` succeeds only on extensions of the pattern. -/
theorem dropPref_eq_some {p l r : Chars} (h : dropPref p l = some r) : l = p ++ r := by
  induction p generalizing l with
  | nil =>
    simp [dropPref] at h
    simp [h]
  | cons a ps ih =>
    cases l with
    | nil => simp [dropPref] at h
    | cons c cs =>
      simp only [dropPref] at h
      split at h
      · rename_i he
        rw [List.cons_append, ← he, ih h]
      · exact absurd h (by simp)

/-- A substring occurrence surrounded by arbitrary text is found by `hasSub`. -/
theorem hasSub_of_append (pat x y : Chars) : hasSub pat (x ++ pat ++ y) = true := by
  induction x with
  | nil =>
    cases hp : pat ++ y with
    | nil =>
      simp at hp
      simp [hasSub, hp]
    | cons a t =>
      have : hasPref pat (pat ++ y) = true := hasPref_append pat y
      simp only [List.nil_append, hp] at this ⊢
      simp [hasSub, this]
  | cons a t ih =>
    have : (a :: t) ++ pat ++ y = a :: (t ++ pat ++ y) := by simp
    rw [this]
    simp only [hasSub, Bool.or_eq_true]
    right
    simpa [List.append_assoc] using ih

/-- `takeWhile`/`dropWhile` on a run of satisfying elements followed by a
failing element split exactly at that element. -/
theorem takeWhile_run {α : Type} {p : α → Bool} {l : List α} {x : α}
    (hl : ∀ c ∈ l, p c = true) (hx : p x = false) (r : List α) :
    (l ++ x :: r).takeWhile p = l ∧ (l ++ x :: r).dropWhile p = x :: r := by
  induction l with
  | nil =>
    have hx' : ¬ p x = true := by simp [hx]
    constructor
    · rw [List.nil_append, List.takeWhile_cons_of_neg hx']
    · rw [List.nil_append, List.dropWhile_cons_of_neg hx']
  | cons a t ih =>
    have ha : p a = true := hl a (by simp)
    have ih' := ih (fun c hc => hl c (by simp [hc]))
    constructor
    · simp only [List.cons_append, List.takeWhile_cons_of_pos ha, ih'.1]
    · simp only [List.cons_append, List.dropWhile_cons_of_pos ha, ih'.2]

/-! ## Decimal digit lemmas -/

/-- `digitCh` produces ASCII digits. -/
theorem isDigitCh_digitCh {k : Nat} (h : k < 10) : isDigitCh (digitCh k) = true := by
  interval_cases k <;> decide

/-- The value of a `digitCh` character. -/
theorem digitCh_toNat {k : Nat} (h : k < 10) : (digitCh k).toNat - 48 = k := by
  interval_cases k <;> decide

/-- Appending one digit multiplies the accumulated value by ten. -/
theorem digitsToNat_append (l : Chars) (c : Char) :
    digitsToNat (l ++ [c]) = 10 * digitsToNat l + (c.toNat - 48) := by
  unfold digitsToNat
  rw [List.foldl_append]
  rfl

/-- `natDigitsCore` of zero is empty at every fuel. -/
theorem natDigitsCore_zero (fuel : Nat) : natDigitsCore fuel 0 = [] := by
  cases fuel with
  | zero => rfl
  | succ f => simp [natDigitsCore]

/-- Every character produced by `natDigitsCore` is an ASCII digit. -/
theorem natDigitsCore_digits (fuel : Nat) :
    ∀ n c, c ∈ natDigitsCore fuel n → isDigitCh c = true := by
  induction fuel with
  | zero => intro n c h; simp [natDigitsCore] at h
  | succ f ih =>
    intro n c h
    by_cases hn : n = 0
    · subst hn; simp [natDigitsCore] at h
    · rw [show natDigitsCore (f + 1) n = natDigitsCore f (n / 10) ++ [digitCh (n % 10)] from by
        simp [natDigitsCore, hn]] at h
      rcases List.mem_append.mp h with h' | h'
      · exact ih (n / 10) c h'
      · simp at h'
        subst h'
        exact isDigitCh_digitCh (Nat.mod_lt n (by omega))

/-- Every character of `natToDigits n` is an ASCII digit. -/
theorem natToDigits_digits {n : Nat} {c : Char} (h : c ∈ natToDigits n) :
    isDigitCh c = true := by
  unfold natToDigits at h
  split at h
  · simp at h; subst h; decide
  · exact natDigitsCore_digits n n c h

/-- `natToDigits` never returns the empty string. -/
theorem natToDigits_ne_nil (n : Nat) : natToDigits n ≠ [] := by
  unfold natToDigits
  split
  · simp
  · rename_i hn
    cases n with
    | zero => exact absurd rfl hn
    | succ m =>
      simp only [natDigitsCore, if_neg hn]
      simp

/-- Parsing back the decimal digits of a nonzero number below the fuel. -/
theorem digitsToNat_core (fuel : Nat) :
    ∀ n, n ≤ fuel → digitsToNat (natDigitsCore fuel n) = n := by
  induction fuel with
  | zero =>
    intro n h
    interval_cases n
    rfl
  | succ f ih =>
    intro n h
    by_cases hn : n = 0
    · subst hn
      rw [natDigitsCore_zero]
      rfl
    · rw [show natDigitsCore (f + 1) n = natDigitsCore f (n / 10) ++ [digitCh (n % 10)] from by
        simp [natDigitsCore, hn]]
      rw [digitsToNat_append, ih (n / 10) (by omega), digitCh_toNat (Nat.mod_lt n (by omega))]
      omega

/-- Python `int(str(n)) = n` on the model. -/
theorem digitsToNat_natToDigits (n : Nat) : digitsToNat (natToDigits n) = n := by
  unfold natToDigits
  by_cases h : n = 0
  · subst h; decide
  · rw [if_neg h]
    exact digitsToNat_core n n le_rfl

/-- ASCII digits are not whitespace, not `=`, not `"`, and not a space. -/
theorem isDigitCh_facts {c : Char} (h : isDigitCh c = true) :
    isPySpace c = false ∧ c ≠ '=' ∧ c ≠ '"' := by
  have hb := of_decide_eq_true h
  refine ⟨isPySpace_false_of_toNat (by omega), ?_, ?_⟩
  · intro he; subst he; exact absurd hb (by decide)
  · intro he; subst he; exact absurd hb (by decide)

/-! ## Parse and file-line lemmas -/

/-- A line parsed as a trade-name line starts with `T`. -/
theorem parseTradeLine_head {l : Chars} {iv : Nat × Chars}
    (h : parseTradeLine l = some iv) : l.head? = some 'T' := by
  unfold parseTradeLine at h
  cases hd : dropPref tradeStem l with
  | none => rw [hd] at h; exact absurd h (by simp)
  | some rest =>
    rw [dropPref_eq_some hd]
    rfl

/-- A stripped line of the exact shape `Trade_Name_<i>=<rest>` (with the
canonical digits of `i`) parses to `i` and `rest`. -/
theorem parseTradeLine_key (i : Nat) (rest : Chars) :
    parseTradeLine (tradeStem ++ natToDigits i ++ '=' :: rest) = some (i, rest) := by
  have hrun := takeWhile_run (l := natToDigits i) (x := '=')
    (fun c hc => natToDigits_digits hc) (by decide) rest
  unfold parseTradeLine
  rw [List.append_assoc, dropPref_append]
  simp [hrun.1, hrun.2, natToDigits_ne_nil, digitsToNat_natToDigits]

/-- A line matching the key `Trade_Name_<i>` parses to index `i`. -/
theorem matchesKey_trade_parse {i : Nat} {line : Chars}
    (h : matchesKey (tradeStem ++ natToDigits i) line = true) :
    ∃ v, parseTradeLine (stripList line) = some (i, v) := by
  obtain ⟨r, hr⟩ := hasPref_iff.mp h
  refine ⟨r, ?_⟩
  rw [hr]
  rw [show (tradeStem ++ natToDigits i ++ ['=']) ++ r = tradeStem ++ natToDigits i ++ '=' :: r from
    by simp]
  exact parseTradeLine_key i r

/-- Stripping the canonical line `key="value"\n` removes exactly the newline,
when the key starts with a non-whitespace character. -/
theorem stripList_envLine {key value : Chars} {c : Char} (hk : key.head? = some c)
    (hc : isPySpace c = false) :
    stripList (envLine key value) = key ++ '=' :: '"' :: (value ++ ['"']) := by
  have hsh : envLine key value = (key ++ '=' :: '"' :: (value ++ ['"'])) ++ ['\n'] := by
    simp [envLine]
  rw [hsh]
  apply stripList_append_newline (c := c) (d := '"')
  · cases key with
    | nil => exact absurd hk (by simp)
    | cons a t => simpa using hk
  · exact hc
  · rw [show key ++ '=' :: '"' :: (value ++ ['"']) = (key ++ '=' :: '"' :: value) ++ ['"'] from by
      simp]
    exact List.getLast?_concat _
  · decide

/-- `dropPref` of the trade-name stem fails on text not starting with `T`. -/
theorem dropPref_tradeStem_none {a : Char} (ha : a ≠ 'T') (t : Chars) :
    dropPref tradeStem (a :: t) = none := by
  have hstem : tradeStem = 'T' :: "rade_Name_".data := rfl
  rw [hstem]
  unfold dropPref
  rw [if_neg (fun he => ha he.symm)]

/-- `parseTradeLine` only accepts text starting with `T`. -/
theorem parse_none_of_head {l : Chars} {a : Char} (hl : l.head? = some a)
    (ha : a ≠ 'T') : parseTradeLine l = none := by
  cases l with
  | nil => exact absurd hl (by simp)
  | cons b t =>
    have hb : b = a := by simpa using hl
    subst hb
    unfold parseTradeLine
    rw [dropPref_tradeStem_none ha]

/-- The canonical line for a key that does not start with `T` never parses as
a trade-name line. -/
theorem parse_envLine_none {key value : Chars} {c : Char} (hk : key.head? = some c)
    (hct : c ≠ 'T') (hcw : isPySpace c = false) :
    parseTradeLine (stripList (envLine key value)) = none := by
  rw [stripList_envLine hk hcw]
  apply parse_none_of_head ?_ hct
  cases key with
  | nil => exact absurd hk (by simp)
  | cons a t => simpa using hk

/-- A line matching a key that does not start with `T` never parses as a
trade-name line. -/
theorem parse_none_of_matcher {key line : Chars} {c : Char} (hk : key.head? = some c)
    (hct : c ≠ 'T') (h : matchesKey key line = true) :
    parseTradeLine (stripList line) = none := by
  obtain ⟨r, hr⟩ := hasPref_iff.mp h
  cases key with
  | nil => exact absurd hk (by simp)
  | cons a ks =>
    have ha : a = c := by simpa using hk
    subst ha
    rw [hr]
    exact parse_none_of_head (by simp) hct

/-! ## Dictionary lemmas -/

/-- Unfolding `lookupA` on a cons cell. -/
theorem lookupA_cons (p : Chars × Nat) (rest : List (Chars × Nat)) (k : Chars) :
    lookupA (p :: rest) k = if p.1 = k then some p.2 else lookupA rest k := by
  rcases p with ⟨a, b⟩
  rfl

/-- Replacing the entry of key `k` in place yields `v` at `k`. -/
theorem lookupA_map_replace {m : List (Chars × Nat)} {k : Chars} {v : Nat}
    (h : (lookupA m k).isSome = true) :
    lookupA (m.map (fun p => if p.1 = k then (k, v) else p)) k = some v := by
  induction m with
  | nil => simp [lookupA] at h
  | cons p rest ih =>
    simp only [List.map_cons]
    by_cases hp : p.1 = k
    · rw [if_pos hp, lookupA_cons]
      simp
    · rw [if_neg hp, lookupA_cons, if_neg hp]
      apply ih
      rw [lookupA_cons, if_neg hp] at h
      exact h

/-- Replacing the entry of key `k` leaves other keys untouched. -/
theorem lookupA_map_replace_ne {m : List (Chars × Nat)} {k q : Chars} {v : Nat}
    (h : q ≠ k) :
    lookupA (m.map (fun p => if p.1 = k then (k, v) else p)) q = lookupA m q := by
  induction m with
  | nil => rfl
  | cons p rest ih =>
    simp only [List.map_cons]
    by_cases hp : p.1 = k
    · rw [if_pos hp, lookupA_cons, lookupA_cons]
      rw [if_neg (fun he => h he.symm), if_neg (by rw [hp]; exact fun he => h he.symm)]
      exact ih
    · rw [if_neg hp, lookupA_cons, lookupA_cons]
      split
      · rfl
      · exact ih

/-- Looking up past a miss-only portion reaches the tail. -/
theorem lookupA_append_none {m1 m2 : List (Chars × Nat)} {k : Chars}
    (h : lookupA m1 k = none) : lookupA (m1 ++ m2) k = lookupA m2 k := by
  induction m1 with
  | nil => rfl
  | cons p rest ih =>
    rw [lookupA_cons] at h
    rw [List.cons_append, lookupA_cons]
    split at h
    · exact absurd h (by simp)
    · rename_i hne
      rw [if_neg hne]
      exact ih h

/-- A hit in the first part of an appended dictionary is kept. -/
theorem lookupA_append_some {m1 : List (Chars × Nat)} {q : Chars} {w : Nat}
    (h : lookupA m1 q = some w) (m2 : List (Chars × Nat)) :
    lookupA (m1 ++ m2) q = some w := by
  induction m1 with
  | nil => simp [lookupA] at h
  | cons p rest ih =>
    rw [lookupA_cons] at h
    rw [List.cons_append, lookupA_cons]
    split at h
    · rename_i hpq
      rw [if_pos hpq]
      exact h
    · rename_i hpq
      rw [if_neg hpq]
      exact ih h

/-- `insertA` followed by lookup behaves like a Python `dict` write. -/
theorem lookupA_insertA (m : List (Chars × Nat)) (k q : Chars) (v : Nat) :
    lookupA (insertA m k v) q = if q = k then some v else lookupA m q := by
  unfold insertA
  by_cases hq : q = k
  · subst hq
    rw [if_pos rfl]
    split
    · exact lookupA_map_replace (by assumption)
    · rename_i h
      have hnone : lookupA m q = none := by
        cases hl : lookupA m q
        · rfl
        · rw [hl] at h; simp at h
      rw [lookupA_append_none hnone, lookupA_cons]
      simp [lookupA]
  · rw [if_neg hq]
    split
    · exact lookupA_map_replace_ne hq
    · cases hl : lookupA m q with
      | none =>
        rw [lookupA_append_none hl, lookupA_cons]
        rw [if_neg (fun he => hq he.symm)]
        rfl
      | some w =>
        exact lookupA_append_some hl _

/-! ## Characterization of `update_env_variable` -/

/-- The rewriting loop of `update_env_variable` is a map over the lines plus
an any-match flag. -/
theorem foldl_updStep (key value : Chars) (lines : List Chars) :
    ∀ (acc : List Chars) (b : Bool),
    lines.foldl (updStep key value) (acc, b) =
      (acc ++ lines.map (fun l => if matchesKey key l then envLine key value else l),
       b || lines.any (matchesKey key)) := by
  induction lines with
  | nil => intro acc b; simp
  | cons l t ih =>
    intro acc b
    rw [List.foldl_cons]
    by_cases h : matchesKey key l = true
    · rw [show updStep key value (acc, b) l = (acc ++ [envLine key value], true) from by
        unfold updStep; rw [if_pos h]]
      rw [ih]
      simp [h, List.append_assoc]
    · rw [show updStep key value (acc, b) l = (acc ++ [l], b) from by
        unfold updStep; rw [if_neg h]]
      rw [ih]
      simp [h, List.append_assoc]

/-- A map by a pointwise-identity function is the identity. -/
theorem map_eq_self_of {α : Type} {f : α → α} {l : List α}
    (h : ∀ x ∈ l, f x = x) : l.map f = l := by
  induction l with
  | nil => rfl
  | cons a t ih => rw [List.map_cons, h a (by simp), ih (fun x hx => h x (by simp [hx]))]

/-- `update_env_variable` either rewrites every matching line in place or
appends the canonical line. -/
theorem update_env_eq (key value : Chars) (lines : List Chars) :
    update_env_variable key value lines =
      if lines.any (matchesKey key) then
        lines.map (fun l => if matchesKey key l then envLine key value else l)
      else lines ++ [envLine key value] := by
  unfold update_env_variable
  rw [foldl_updStep]
  by_cases h : lines.any (matchesKey key) = true
  · simp [h]
  · have hfalse : lines.any (matchesKey key) = false := by
      rcases hb : lines.any (matchesKey key) with _ | _
      · rfl
      · exact absurd hb h
    have hall : ∀ l ∈ lines, matchesKey key l = false := by
      intro l hl
      rcases hb : matchesKey key l with _ | _
      · rfl
      · exact absurd (List.any_eq_true.mpr ⟨l, hl, hb⟩) h
    rw [hfalse]
    have hmap : lines.map (fun l => if matchesKey key l then envLine key value else l) = lines :=
      map_eq_self_of (fun l hl => by rw [if_neg (by simp [hall l hl])])
    simp [hmap]

/-- For a sane key (nonempty, no `=`, not beginning with whitespace), matching
a line is the same as the line carrying that key. -/
theorem matchesKey_iff_lineKey {key line : Chars} (h0 : key ≠ [])
    (h1 : ∀ c ∈ key, c ≠ '=') :
    matchesKey key line = true ↔ lineKeyOf line = some key := by
  unfold matchesKey lineKeyOf
  rw [hasPref_iff]
  constructor
  · rintro ⟨r, hr⟩
    rw [show (key ++ ['=']) ++ r = key ++ '=' :: r from by simp] at hr
    rw [hr]
    have hrun := takeWhile_run (l := key) (p := fun c => c != '=') (x := '=')
      (fun c hc => by simpa using h1 c hc) (by decide) r
    rw [if_pos]
    · rw [hrun.1]
    · simp
  · intro h
    split at h
    · rename_i hany
      have hk : (stripList line).takeWhile (fun c => c != '=') = key := by
        simpa using h
      -- the part after the key run must start with '='
      have hsplit := List.takeWhile_append_dropWhile (fun c => c != '=') (stripList line)
      cases hd : (stripList line).dropWhile (fun c => c != '=') with
      | nil =>
        -- then the stripped line is exactly the key, contradicting hany
        exfalso
        rw [hd, List.append_nil, hk] at hsplit
        rw [← hsplit] at hany
        simp only [List.any_eq_true] at hany
        obtain ⟨c, hc, hce⟩ := hany
        exact h1 c hc (by simpa using hce)
      | cons d rest =>
        have hde : (fun c => c != '=') d = false := by
          have := head_dropWhile_false (p := fun c => c != '=') (l := stripList line)
            (by rw [hd]; rfl)
          exact this
        have hd' : d = '=' := by simpa using hde
        refine ⟨rest, ?_⟩
        rw [show (key ++ ['=']) ++ rest = key ++ '=' :: rest from by simp]
        rw [← hsplit, hk, hd, hd']
    · exact absurd h (by simp)

/-! ## Scanning under rewrites -/

/-- `get_account_mapping` only looks at lines through `parseTradeLine` of
their stripped form. -/
theorem foldl_scanStep_map {f : Chars → Chars} {lines : List Chars}
    (h : ∀ l ∈ lines, parseTradeLine (stripList (f l)) = parseTradeLine (stripList l)) :
    ∀ st, (lines.map f).foldl scanStep st = lines.foldl scanStep st := by
  induction lines with
  | nil => intro st; rfl
  | cons l t ih =>
    intro st
    rw [List.map_cons, List.foldl_cons, List.foldl_cons]
    rw [show scanStep st (f l) = scanStep st l from by
      unfold scanStep; rw [h l (by simp)]]
    exact ih (fun x hx => h x (by simp [hx])) _

/-- The running highest index only depends on the parsed indices. -/
theorem foldl_scanStep_idx {f : Chars → Chars} {lines : List Chars}
    (h : ∀ l ∈ lines, (parseTradeLine (stripList (f l))).map Prod.fst =
      (parseTradeLine (stripList l)).map Prod.fst) :
    ∀ st st' : List (Chars × Nat) × Nat, st.2 = st'.2 →
      ((lines.map f).foldl scanStep st).2 = (lines.foldl scanStep st').2 := by
  induction lines with
  | nil => intro st st' he; exact he
  | cons l t ih =>
    intro st st' he
    rw [List.map_cons, List.foldl_cons, List.foldl_cons]
    apply ih (fun x hx => h x (by simp [hx]))
    unfold scanStep
    cases hp : parseTradeLine (stripList l) with
    | none =>
      have hf : parseTradeLine (stripList (f l)) = none := by
        have hh := h l (by simp)
        rw [hp] at hh
        simpa using hh
      rw [hf]
      exact he
    | some iv =>
      have hh := h l (by simp)
      rw [hp] at hh
      cases hf : parseTradeLine (stripList (f l)) with
      | none => rw [hf] at hh; simp at hh
      | some jw =>
        rw [hf] at hh
        rcases iv with ⟨i, v⟩
        rcases jw with ⟨j, w⟩
        have hji : j = i := by simpa using hh
        show max st.2 j = max st'.2 i
        rw [hji, he]

/-- The running highest index never decreases. -/
theorem foldl_scanStep_mono (lines : List Chars) :
    ∀ st : List (Chars × Nat) × Nat, st.2 ≤ (lines.foldl scanStep st).2 := by
  induction lines with
  | nil => intro st; exact le_rfl
  | cons l t ih =>
    intro st
    rw [List.foldl_cons]
    refine le_trans ?_ (ih (scanStep st l))
    unfold scanStep
    cases hp : parseTradeLine (stripList l) with
    | none => exact le_rfl
    | some iv =>
      rcases iv with ⟨i, v⟩
      exact Nat.le_max_left _ _

/-- Every index found in the mapping is bounded by the running highest. -/
theorem foldl_scanStep_lookup_le (lines : List Chars) :
    ∀ st : List (Chars × Nat) × Nat,
      (∀ k i, lookupA st.1 k = some i → i ≤ st.2) →
      ∀ k i, lookupA (lines.foldl scanStep st).1 k = some i →
        i ≤ (lines.foldl scanStep st).2 := by
  induction lines with
  | nil => intro st h; exact h
  | cons l t ih =>
    intro st h
    rw [List.foldl_cons]
    apply ih
    intro k i hk
    unfold scanStep at hk ⊢
    cases hp : parseTradeLine (stripList l) with
    | none =>
      rw [hp] at hk
      exact h k i hk
    | some iv =>
      rcases iv with ⟨j, v⟩
      rw [hp] at hk
      have hk' : lookupA (insertA st.1 (normalizeStored v) j) k = some i := hk
      rw [lookupA_insertA] at hk'
      show i ≤ max st.2 j
      split at hk'
      · cases hk'
        exact Nat.le_max_right _ _
      · exact le_trans (h k i hk') (Nat.le_max_left _ _)

/-- Every index parsed from a member line is bounded by the final highest. -/
theorem parse_member_le (lines : List Chars) :
    ∀ (st : List (Chars × Nat) × Nat) (l : Chars), l ∈ lines →
      ∀ i v, parseTradeLine (stripList l) = some (i, v) →
        i ≤ (lines.foldl scanStep st).2 := by
  induction lines with
  | nil => intro st l hl; simp at hl
  | cons a t ih =>
    intro st l hl i v hp
    rcases List.mem_cons.mp hl with rfl | hl'
    · rw [List.foldl_cons]
      refine le_trans ?_ (foldl_scanStep_mono t (scanStep st l))
      unfold scanStep
      rw [hp]
      exact Nat.le_max_right _ _
    · rw [List.foldl_cons]
      exact ih (scanStep st a) l hl' i v hp

/-- The final highest index is the maximum of the parsed indices. -/
theorem foldl_scanStep_snd (lines : List Chars) :
    ∀ (h0 : Nat) (m : List (Chars × Nat)),
      ((lines.foldl scanStep (m, h0)).2) = (tradeIndices lines).foldl max h0 := by
  induction lines with
  | nil => intro h0 m; rfl
  | cons l t ih =>
    intro h0 m
    rw [List.foldl_cons]
    unfold tradeIndices
    cases hp : parseTradeLine (stripList l) with
    | none =>
      rw [show scanStep (m, h0) l = (m, h0) from by unfold scanStep; rw [hp]]
      rw [show (l :: t).filterMap (fun x => (parseTradeLine (stripList x)).map Prod.fst) =
        t.filterMap (fun x => (parseTradeLine (stripList x)).map Prod.fst) from by
        rw [List.filterMap_cons]; rw [hp]; rfl]
      exact ih h0 m
    | some iv =>
      rcases iv with ⟨i, v⟩
      rw [show scanStep (m, h0) l = (insertA m (normalizeStored v) i, max h0 i) from by
        unfold scanStep; rw [hp]]
      rw [show (l :: t).filterMap (fun x => (parseTradeLine (stripList x)).map Prod.fst) =
        i :: t.filterMap (fun x => (parseTradeLine (stripList x)).map Prod.fst) from by
        rw [List.filterMap_cons]; rw [hp]; rfl]
      rw [List.foldl_cons]
      exact ih (max h0 i) _

/-! ## Maximum facts -/

/-- A `foldl max` result is the seed or a member. -/
theorem foldl_max_mem (l : List Nat) : ∀ a : Nat, l.foldl max a ∈ a :: l := by
  induction l with
  | nil => intro a; simp
  | cons b t ih =>
    intro a
    rw [List.foldl_cons]
    rcases List.mem_cons.mp (ih (max a b)) with h | h
    · rw [h]
      rcases max_choice a b with h' | h' <;> rw [h']
      · simp
      · simp
    · simp [h]

/-- The seed bounds a `foldl max` result from below. -/
theorem foldl_max_init (l : List Nat) : ∀ a : Nat, a ≤ l.foldl max a := by
  induction l with
  | nil => intro a; exact le_rfl
  | cons b t ih =>
    intro a
    rw [List.foldl_cons]
    exact le_trans (Nat.le_max_left a b) (ih (max a b))

/-- Every member bounds a `foldl max` result from below. -/
theorem foldl_max_mem_le (l : List Nat) : ∀ (a j : Nat), j ∈ l → j ≤ l.foldl max a := by
  induction l with
  | nil => intro a j hj; simp at hj
  | cons b t ih =>
    intro a j hj
    rw [List.foldl_cons]
    rcases List.mem_cons.mp hj with rfl | hj'
    · exact le_trans (Nat.le_max_right a j) (foldl_max_init t (max a j))
    · exact ih (max a b) j hj'

/-! ## Login attempt lemmas -/

/-- With a fault injected at a step inside the `try` block, the body raises. -/
theorem tryBody_fault {d : SimDriver} {s : LStep} (hs : d.faultAt = some s)
    (hnav : s ≠ LStep.navigate) : tryBody d = Except.error () := by
  unfold tryBody runStep
  rw [hs]
  cases s
  · exact absurd rfl hnav
  all_goals rfl

/-- With no fault injected, the body reaches the classification. -/
theorem tryBody_ok {d : SimDriver} (h : d.faultAt = none) :
    tryBody d = Except.ok
      (hasSub "dashboard".data d.currentUrl || hasSub "home".data d.currentUrl ||
       hasSub "loggedin".data d.currentUrl) := by
  unfold tryBody runStep
  rw [h]
  rfl

/-! ## Claim theorems -/

/-- C1 (code bug): the claim demands that whenever the driver was constructed,
`driver.quit()` runs exactly once for every outcome, including an exception
raised during navigation. In the source, `driver.get(url)` (line 326) sits
outside the `try:` of line 328, so a fault injected at the navigation step
propagates out of `perform_gst_login` and the quit count stays `0`. -/
theorem c1_nav_fault_skips_quit :
    (perform_login_attempt "Acme".data
      { faultAt := some LStep.navigate, currentUrl := [], errorElem := none }).quitCount = 0 ∧
    (perform_login_attempt "Acme".data
      { faultAt := some LStep.navigate, currentUrl := [], errorElem := none }).outcome =
      AttemptOutcome.propagatedExn := by
  constructor
  · rfl
  · rfl

/-- C2: every fault raised at a step of the automation sequence after the
session is open — that is, at the states `Navigated` through `Submitted`,
which all run inside the `try:` of line 328 — is caught by the `except`
clause, reported in a message carrying the account's name, and converted
into a failure outcome of the attempt; it never propagates (so the outer
menu loop stays reachable). -/
theorem c2_faults_in_try_caught (name : Chars) (d : SimDriver) (s : LStep)
    (hs : d.faultAt = some s) (hnav : s ≠ LStep.navigate) :
    (perform_login_attempt name d).outcome = AttemptOutcome.caughtExn ∧
    (perform_login_attempt name d).outcome ≠ AttemptOutcome.propagatedExn ∧
    ∃ m ∈ (perform_login_attempt name d).messages, hasSub name m = true := by
  have hnavstep : runStep d LStep.navigate = Except.ok () := by
    unfold runStep
    rw [if_neg]
    rw [hs]
    simp [hnav]
  have htry := tryBody_fault hs hnav
  unfold perform_login_attempt
  rw [hnavstep, htry]
  refine ⟨rfl, by simp, ?_⟩
  exact ⟨"An error occurred during login for account ".data ++ name ++ ": <exception>".data,
    by simp, hasSub_of_append name _ _⟩

/-- C2 witness: a fault at the CAPTCHA-wait step of a concrete attempt. -/
theorem c2_witness :
    (perform_login_attempt "Acme".data
      { faultAt := some LStep.waitCaptcha, currentUrl := [], errorElem := none }).outcome =
      AttemptOutcome.caughtExn ∧
    ∃ m ∈ (perform_login_attempt "Acme".data
      { faultAt := some LStep.waitCaptcha, currentUrl := [], errorElem := none }).messages,
      hasSub "Acme".data m = true := by
  have h := c2_faults_in_try_caught "Acme".data
    { faultAt := some LStep.waitCaptcha, currentUrl := [], errorElem := none }
    LStep.waitCaptcha rfl (by decide)
  exact ⟨h.1, h.2.2⟩

/-- C7: after the post-submit settle delay a fault-free attempt is classified
`Success` exactly when the location contains one of the markers `dashboard`,
`home` or `loggedin`; otherwise it is a `Failure`, the session is still
closed once, and a missing on-page error element is swallowed (the outcome
stays `classifiedFailure` even with no error element present). -/
theorem c7_classification (name : Chars) (d : SimDriver) (h : d.faultAt = none) :
    ((perform_login_attempt name d).outcome = AttemptOutcome.success ↔
      (hasSub "dashboard".data d.currentUrl || hasSub "home".data d.currentUrl ||
       hasSub "loggedin".data d.currentUrl) = true) ∧
    ((hasSub "dashboard".data d.currentUrl || hasSub "home".data d.currentUrl ||
       hasSub "loggedin".data d.currentUrl) = false →
      (perform_login_attempt name d).outcome = AttemptOutcome.classifiedFailure ∧
      (perform_login_attempt name d).quitCount = 1) := by
  have hnavstep : runStep d LStep.navigate = Except.ok () := by
    unfold runStep
    rw [if_neg]
    rw [h]
    simp
  unfold perform_login_attempt
  rw [hnavstep, tryBody_ok h]
  cases hb : (hasSub "dashboard".data d.currentUrl || hasSub "home".data d.currentUrl ||
      hasSub "loggedin".data d.currentUrl) with
  | true => exact ⟨by simp, by simp⟩
  | false =>
    constructor
    · constructor
      · intro hc
        exact absurd hc (by simp)
      · intro hc
        exact absurd hc (by simp)
    · intro _
      exact ⟨rfl, rfl⟩

/-- C7 witness: a dashboard location is classified as success. -/
theorem c7_witness :
    (perform_login_attempt "Acme".data
      { faultAt := none, currentUrl := "gst/dashboard".data, errorElem := none }).outcome =
      AttemptOutcome.success := by
  have h := c7_classification "Acme".data
    { faultAt := none, currentUrl := "gst/dashboard".data, errorElem := none } rfl
  exact h.1.mpr (by decide)

/-- C10: an add whose trade name, username or password is blank after
stripping aborts before any write: the backing store is returned unchanged
and no index is consumed. -/
theorem c10_rejected_add_no_write (inp : AddInput) (lines : List Chars)
    (h : stripList inp.tradeName = [] ∨ stripList inp.username = [] ∨
      stripList inp.password = []) :
    add_new_account inp lines = (lines, none) := by
  unfold add_new_account
  by_cases hn : stripList inp.tradeName = []
  · rw [if_pos hn]
  · rw [if_neg hn]
    have h23 : stripList inp.username = [] ∨ stripList inp.password = [] := by
      rcases h with h1 | h23
      · exact absurd h1 hn
      · exact h23
    cases hl : lookupA (get_account_mapping lines).1
        (upperAll (removeSpaces (stripList inp.tradeName))) with
    | none => simp [chooseIdx, hl, h23]
    | some i =>
      by_cases hc : lowerAll (stripList inp.confirm) = "yes".data
      · simp [chooseIdx, hl, hc, h23]
      · simp [chooseIdx, hl, hc]

/-- C10 witness: an add with a blank username writes nothing. -/
theorem c10_witness :
    add_new_account
      { tradeName := "Acme".data, confirm := [], username := "  ".data,
        password := "p".data } [] = ([], none) :=
  c10_rejected_add_no_write _ _ (Or.inr (Or.inl (by decide)))

/-- C4: `nextIndex` is one more than the maximum well-formed `Trade_Name_<i>`
index (so `1` when no such line exists), and a store holding exactly the
indices 1 and 3 yields 4. -/
theorem c4_next_index (lines : List Chars) :
    (tradeIndices lines = [] → (get_account_mapping lines).2 = 1) ∧
    (tradeIndices lines ≠ [] →
      ((get_account_mapping lines).2 - 1) ∈ tradeIndices lines ∧
      ∀ j ∈ tradeIndices lines, j ≤ (get_account_mapping lines).2 - 1) ∧
    (get_account_mapping
      ["Trade_Name_1=\"A\"\n".data, "Trade_Name_3=\"B\"\n".data]).2 = 4 := by
  have hsnd : (lines.foldl scanStep ([], 0)).2 = (tradeIndices lines).foldl max 0 :=
    foldl_scanStep_snd lines 0 []
  have hgam : (get_account_mapping lines).2 = (tradeIndices lines).foldl max 0 + 1 := by
    unfold get_account_mapping
    rw [← hsnd]
  refine ⟨?_, ?_, by decide⟩
  · intro he
    rw [hgam, he]
    rfl
  · intro hne
    constructor
    · rw [hgam, Nat.add_sub_cancel]
      rcases List.mem_cons.mp (foldl_max_mem (tradeIndices lines) 0) with h0 | h0
      · rw [h0]
        cases hti : tradeIndices lines with
        | nil => exact absurd hti hne
        | cons j js =>
          have hj : j ≤ 0 := by
            have hle := foldl_max_mem_le (tradeIndices lines) 0 j (by rw [hti]; simp)
            rw [h0] at hle
            exact hle
          have hj0 : j = 0 := Nat.le_zero.mp hj
          subst hj0
          simp
      · exact h0
    · intro j hj
      rw [hgam, Nat.add_sub_cancel]
      exact foldl_max_mem_le _ 0 j hj

/-- C4 witness: the empty store and the concrete `{1,3}` store. -/
theorem c4_witness :
    (get_account_mapping ([] : List Chars)).2 = 1 ∧
    (get_account_mapping
      ["Trade_Name_1=\"A\"\n".data, "Trade_Name_3=\"B\"\n".data]).2 = 4 :=
  ⟨(c4_next_index []).1 rfl, (c4_next_index []).2.2⟩

/-- C9: a line that does not match `Trade_Name_<digits>=<value>` neither
breaks the scan nor contributes to the mapping, the account listing, or the
next index: removing it changes nothing observable. -/
theorem c9_malformed_ignored (pre post : List Chars) (m : Chars)
    (h : parseTradeLine (stripList m) = none) :
    get_account_mapping (pre ++ m :: post) = get_account_mapping (pre ++ post) ∧
    list_all_accounts (pre ++ m :: post) = list_all_accounts (pre ++ post) := by
  have hg : ∀ st : List (Chars × Nat) × Nat,
      (pre ++ m :: post).foldl scanStep st = (pre ++ post).foldl scanStep st := by
    intro st
    rw [List.foldl_append, List.foldl_append, List.foldl_cons]
    rw [show scanStep (pre.foldl scanStep st) m = pre.foldl scanStep st from by
      unfold scanStep; rw [h]]
  have h1 : get_account_mapping (pre ++ m :: post) = get_account_mapping (pre ++ post) := by
    unfold get_account_mapping
    rw [hg]
  refine ⟨h1, ?_⟩
  unfold list_all_accounts
  rw [h1]

/-- C9 witness: the two malformed example lines are ignored by the scan. -/
theorem c9_witness :
    parseTradeLine (stripList "Trade_Name_abc=x".data) = none ∧
    get_account_mapping (["Trade_Name_1=\"A\"\n".data] ++ "Trade_Name_=x".data :: []) =
      get_account_mapping (["Trade_Name_1=\"A\"\n".data] ++ []) :=
  ⟨by decide, (c9_malformed_ignored ["Trade_Name_1=\"A\"\n".data] [] "Trade_Name_=x".data
    (by decide)).1⟩

/-- C8: updating a key rewrites, in place at their original positions, exactly
the lines whose key equals the updated key, appends one canonical line only
when no line carries that key, and preserves every other line — including
lines with unrecognized keys — character for character in its original
order. The hypotheses describe the program's keys (`PREFIX<index>`:
nonempty and free of `=`) and `input()`-supplied values (no newline). -/
theorem c8_update_env_frame (key value : Chars) (lines : List Chars)
    (h0 : key ≠ []) (h1 : ∀ c ∈ key, c ≠ '=') (hnl : ¬ '\n' ∈ value) :
    (∀ i (hi : i < lines.length),
      (lineKeyOf lines[i] ≠ some key →
        (update_env_variable key value lines)[i]? = some lines[i]) ∧
      (lineKeyOf lines[i] = some key →
        (update_env_variable key value lines)[i]? = some (envLine key value))) ∧
    ((∀ l ∈ lines, lineKeyOf l ≠ some key) →
      update_env_variable key value lines = lines ++ [envLine key value]) ∧
    ((∃ l ∈ lines, lineKeyOf l = some key) →
      (update_env_variable key value lines).length = lines.length) := by
  have hiff : ∀ line, matchesKey key line = true ↔ lineKeyOf line = some key :=
    fun line => matchesKey_iff_lineKey h0 h1
  rw [update_env_eq]
  by_cases hany : lines.any (matchesKey key) = true
  · rw [if_pos hany]
    refine ⟨?_, ?_, ?_⟩
    · intro i hi
      constructor
      · intro hne
        rw [List.getElem?_map, List.getElem?_eq_getElem hi]
        have hm : matchesKey key lines[i] = false := by
          rcases hb : matchesKey key lines[i] with _ | _
          · rfl
          · exact absurd ((hiff _).mp hb) hne
        simp [hm]
      · intro heq
        rw [List.getElem?_map, List.getElem?_eq_getElem hi]
        have hm : matchesKey key lines[i] = true := (hiff _).mpr heq
        simp [hm]
    · intro hno
      obtain ⟨l, hl, hm⟩ := List.any_eq_true.mp hany
      exact absurd ((hiff l).mp hm) (hno l hl)
    · intro _
      simp
  · rw [if_neg hany]
    have hnokey : ∀ l ∈ lines, lineKeyOf l ≠ some key := by
      intro l hl hkey
      exact absurd (List.any_eq_true.mpr ⟨l, hl, (hiff l).mpr hkey⟩) hany
    refine ⟨?_, ?_, ?_⟩
    · intro i hi
      constructor
      · intro _
        rw [List.getElem?_append_left hi, List.getElem?_eq_getElem hi]
      · intro heq
        exact absurd heq (hnokey _ (List.mem_iff_getElem.mpr ⟨i, hi, rfl⟩))
    · intro _
      rfl
    · intro hex
      obtain ⟨l, hl, hkey⟩ := hex
      exact absurd hkey (hnokey l hl)

/-- C8 witness: rewriting key `GST_UserID_2` leaves the `GST_UserID_1` line
untouched at its position. -/
theorem c8_witness :
    (update_env_variable "GST_UserID_2".data "u9".data
      ["GST_UserID_1=\"u1\"\n".data])[0]? = some "GST_UserID_1=\"u1\"\n".data := by
  have h := c8_update_env_frame "GST_UserID_2".data "u9".data
    ["GST_UserID_1=\"u1\"\n".data] (by decide) (by decide) (by decide)
  exact (h.1 0 (by decide)).1 (by decide)

/-! ## Key-frame lemmas for the update flow -/

/-- The canonical written line carries its key. -/
theorem lineKeyOf_envLine {key value : Chars} {c : Char} (hk : key.head? = some c)
    (hc : isPySpace c = false) (h1 : ∀ x ∈ key, x ≠ '=') :
    lineKeyOf (envLine key value) = some key := by
  unfold lineKeyOf
  rw [stripList_envLine hk hc]
  have hrun := takeWhile_run (l := key) (p := fun x => x != '=') (x := '=')
    (fun x hx => by simpa using h1 x hx) (by decide) ('"' :: (value ++ ['"']))
  rw [if_pos]
  · rw [hrun.1]
  · simp

/-- Filtering a mapped list when the map preserves the predicate and fixes
the kept elements. -/
theorem filter_map_eq {p : Chars → Bool} {f : Chars → Chars} (lines : List Chars)
    (hpf : ∀ l, p (f l) = p l) (hfix : ∀ l, p l = true → f l = l) :
    (lines.map f).filter p = lines.filter p := by
  induction lines with
  | nil => rfl
  | cons a t ih =>
    rw [List.map_cons]
    by_cases hp : p a = true
    · rw [List.filter_cons_of_pos (by rw [hpf a]; exact hp), List.filter_cons_of_pos hp,
        hfix a hp, ih]
    · rw [List.filter_cons_of_neg (by rw [hpf a]; simpa using hp),
        List.filter_cons_of_neg (by simpa using hp), ih]

/-- Updating one key preserves the lines carrying any other key. -/
theorem keyLines_update_ne {key value q : Chars} {c : Char} (hk : key.head? = some c)
    (hc : isPySpace c = false) (h0 : key ≠ []) (h1 : ∀ x ∈ key, x ≠ '=')
    (hq : q ≠ key) (lines : List Chars) :
    keyLines q (update_env_variable key value lines) = keyLines q lines := by
  rw [update_env_eq]
  by_cases hany : lines.any (matchesKey key) = true
  · rw [if_pos hany]
    unfold keyLines
    apply filter_map_eq
    · intro l
      by_cases hm : matchesKey key l = true
      · rw [if_pos hm, lineKeyOf_envLine hk hc h1, (matchesKey_iff_lineKey h0 h1).mp hm]
      · rw [if_neg hm]
    · intro l hpl
      rw [if_neg]
      intro hm
      have hxq : lineKeyOf l = some q := by simpa using hpl
      rw [(matchesKey_iff_lineKey h0 h1).mp hm] at hxq
      exact hq (by injection hxq with he; exact he.symm)
  · rw [if_neg hany]
    unfold keyLines
    rw [List.filter_append]
    have hz : List.filter (fun l => decide (lineKeyOf l = some q)) [envLine key value] = [] := by
      rw [List.filter_cons_of_neg]
      · rfl
      · simp only [lineKeyOf_envLine hk hc h1, decide_eq_true_eq, Option.some.injEq]
        exact fun he => hq he.symm
    rw [hz, List.append_nil]

/-- After updating a key, every line carrying that key is the canonical line,
and at least one such line exists. -/
theorem update_writes_key {key v : Chars} {c : Char} (hk : key.head? = some c)
    (hc : isPySpace c = false) (h0 : key ≠ []) (h1 : ∀ x ∈ key, x ≠ '=')
    (lines : List Chars) :
    (∀ l ∈ update_env_variable key v lines,
      lineKeyOf l = some key → l = envLine key v) ∧
    (∃ l ∈ update_env_variable key v lines, lineKeyOf l = some key) := by
  rw [update_env_eq]
  by_cases hany : lines.any (matchesKey key) = true
  · rw [if_pos hany]
    constructor
    · intro l hl hkey
      obtain ⟨x, hx, hfx⟩ := List.mem_map.mp hl
      by_cases hm : matchesKey key x = true
      · rw [if_pos hm] at hfx
        exact hfx.symm
      · rw [if_neg hm] at hfx
        subst hfx
        exact absurd ((matchesKey_iff_lineKey h0 h1).mpr hkey) hm
    · obtain ⟨x, hx, hm⟩ := List.any_eq_true.mp hany
      exact ⟨envLine key v, List.mem_map.mpr ⟨x, hx, by rw [if_pos hm]⟩,
        lineKeyOf_envLine hk hc h1⟩
  · rw [if_neg hany]
    constructor
    · intro l hl hkey
      rcases List.mem_append.mp hl with hin | hin
      · exact absurd (List.any_eq_true.mpr ⟨l, hin, (matchesKey_iff_lineKey h0 h1).mpr hkey⟩) hany
      · simpa using hin
    · exact ⟨envLine key v, by simp, lineKeyOf_envLine hk hc h1⟩

/-- No `=` occurs in a stem-plus-digits key. -/
theorem stem_digits_no_eq {stem : Chars} (hs : ∀ x ∈ stem, x ≠ '=') (i : Nat) :
    ∀ x ∈ stem ++ natToDigits i, x ≠ '=' := by
  intro x hx
  rcases List.mem_append.mp hx with h | h
  · exact hs x h
  · exact (isDigitCh_facts (natToDigits_digits h)).2.1

/-- The username and password key families never collide. -/
theorem userKey_ne_passKey (i j : Nat) :
    userStem ++ natToDigits i ≠ passStem ++ natToDigits j := by
  intro he
  have h4 : (userStem ++ natToDigits i)[4]? = (passStem ++ natToDigits j)[4]? := by rw [he]
  rw [List.getElem?_append_left (by decide), List.getElem?_append_left (by decide)] at h4
  exact absurd h4 (by decide)

/-- Membership in the key-filtered line list. -/
theorem mem_keyLines {k : Chars} {lines : List Chars} {l : Chars} :
    l ∈ keyLines k lines ↔ l ∈ lines ∧ lineKeyOf l = some k := by
  unfold keyLines
  rw [List.mem_filter]
  simp

/-- Unfolding `update_existing_account` once the account is found. -/
theorem update_existing_eq (inp : UpdInput) (lines : List Chars) (i : Nat)
    (hfound : lookupA (get_account_mapping lines).1 (normalizeInput inp.accountName) = some i) :
    update_existing_account inp lines =
      (if stripList inp.newPassword ≠ [] then
        update_env_variable (passStem ++ natToDigits i) (stripList inp.newPassword)
          (if stripList inp.newUsername ≠ [] then
            update_env_variable (userStem ++ natToDigits i) (stripList inp.newUsername) lines
           else lines)
       else
        (if stripList inp.newUsername ≠ [] then
          update_env_variable (userStem ++ natToDigits i) (stripList inp.newUsername) lines
         else lines)) := by
  have hne : (get_account_mapping lines).1 ≠ [] := by
    intro he
    rw [he] at hfound
    simp [lookupA] at hfound
  simp only [update_existing_account]
  rw [if_neg hne, hfound]

/-- C6: for an existing account, a blank new password leaves the stored
password lines unchanged and a blank new username leaves the stored username
lines unchanged; a non-blank value rewrites exactly its own field's lines to
the canonical line (and one such line then exists), and lines of every other
key — including the trade-name line — are preserved. -/
theorem c6_partial_update_frame (inp : UpdInput) (lines : List Chars) (i : Nat)
    (hfound : lookupA (get_account_mapping lines).1 (normalizeInput inp.accountName) = some i) :
    (stripList inp.newPassword = [] →
      keyLines (passStem ++ natToDigits i) (update_existing_account inp lines) =
      keyLines (passStem ++ natToDigits i) lines) ∧
    (stripList inp.newUsername = [] →
      keyLines (userStem ++ natToDigits i) (update_existing_account inp lines) =
      keyLines (userStem ++ natToDigits i) lines) ∧
    (stripList inp.newUsername ≠ [] →
      (∀ l ∈ update_existing_account inp lines,
        lineKeyOf l = some (userStem ++ natToDigits i) →
        l = envLine (userStem ++ natToDigits i) (stripList inp.newUsername)) ∧
      ∃ l ∈ update_existing_account inp lines,
        lineKeyOf l = some (userStem ++ natToDigits i)) ∧
    (stripList inp.newPassword ≠ [] →
      (∀ l ∈ update_existing_account inp lines,
        lineKeyOf l = some (passStem ++ natToDigits i) →
        l = envLine (passStem ++ natToDigits i) (stripList inp.newPassword)) ∧
      ∃ l ∈ update_existing_account inp lines,
        lineKeyOf l = some (passStem ++ natToDigits i)) ∧
    (∀ k, k ≠ userStem ++ natToDigits i → k ≠ passStem ++ natToDigits i →
      keyLines k (update_existing_account inp lines) = keyLines k lines) := by
  have hU : (userStem ++ natToDigits i).head? = some 'G' := rfl
  have hP : (passStem ++ natToDigits i).head? = some 'G' := rfl
  have hUne : userStem ++ natToDigits i ≠ [] := by
    intro he
    have h := hU
    rw [he] at h
    exact absurd h (by simp)
  have hPne : passStem ++ natToDigits i ≠ [] := by
    intro he
    have h := hP
    rw [he] at h
    exact absurd h (by simp)
  have hUeqn : ∀ x ∈ userStem ++ natToDigits i, x ≠ '=' := stem_digits_no_eq (by decide) i
  have hPeqn : ∀ x ∈ passStem ++ natToDigits i, x ≠ '=' := stem_digits_no_eq (by decide) i
  have hUP : userStem ++ natToDigits i ≠ passStem ++ natToDigits i := userKey_ne_passKey i i
  have hPU : passStem ++ natToDigits i ≠ userStem ++ natToDigits i := fun he => hUP he.symm
  have hGw : isPySpace 'G' = false := by decide
  rw [update_existing_eq inp lines i hfound]
  by_cases hu : stripList inp.newUsername = []
  · by_cases hp : stripList inp.newPassword = []
    · rw [if_neg (by simp [hp]), if_neg (by simp [hu])]
      exact ⟨fun _ => rfl, fun _ => rfl, fun hun => absurd hu hun, fun hpn => absurd hp hpn,
        fun k _ _ => rfl⟩
    · rw [if_pos hp, if_neg (by simp [hu])]
      refine ⟨fun hpb => absurd hpb hp, ?_, fun hun => absurd hu hun, ?_, ?_⟩
      · intro _
        exact keyLines_update_ne hP hGw hPne hPeqn hUP lines
      · intro _
        exact update_writes_key hP hGw hPne hPeqn lines
      · intro k _ hkp
        exact keyLines_update_ne hP hGw hPne hPeqn hkp lines
  · by_cases hp : stripList inp.newPassword = []
    · rw [if_neg (by simp [hp]), if_pos hu]
      refine ⟨?_, fun hub => absurd hub hu, ?_, fun hpn => absurd hp hpn, ?_⟩
      · intro _
        exact keyLines_update_ne hU hGw hUne hUeqn hPU lines
      · intro _
        exact update_writes_key hU hGw hUne hUeqn lines
      · intro k hku _
        exact keyLines_update_ne hU hGw hUne hUeqn hku lines
    · rw [if_pos hp, if_pos hu]
      have h1 := update_writes_key (v := stripList inp.newUsername) hU hGw hUne hUeqn lines
      have hframe : keyLines (userStem ++ natToDigits i)
          (update_env_variable (passStem ++ natToDigits i) (stripList inp.newPassword)
            (update_env_variable (userStem ++ natToDigits i) (stripList inp.newUsername) lines)) =
          keyLines (userStem ++ natToDigits i)
            (update_env_variable (userStem ++ natToDigits i) (stripList inp.newUsername) lines) :=
        keyLines_update_ne hP hGw hPne hPeqn hUP _
      refine ⟨fun hpb => absurd hpb hp, fun hub => absurd hub hu, ?_, ?_, ?_⟩
      · intro _
        constructor
        · intro l hl hkey
          have hmem := mem_keyLines.mpr ⟨hl, hkey⟩
          rw [hframe] at hmem
          obtain ⟨hl1, hk1⟩ := mem_keyLines.mp hmem
          exact h1.1 l hl1 hk1
        · obtain ⟨l, hl1, hk1⟩ := h1.2
          have hmem := mem_keyLines.mpr ⟨hl1, hk1⟩
          rw [← hframe] at hmem
          obtain ⟨hlr, hkr⟩ := mem_keyLines.mp hmem
          exact ⟨l, hlr, hkr⟩
      · intro _
        exact update_writes_key hP hGw hPne hPeqn _
      · intro k hku hkp
        rw [keyLines_update_ne hP hGw hPne hPeqn hkp _,
          keyLines_update_ne hU hGw hUne hUeqn hku lines]

/-- C6 witness: updating account `Beta` (index 2) with a blank new password
leaves the stored password line unchanged. -/
theorem c6_witness :
    keyLines (passStem ++ natToDigits 2)
      (update_existing_account
        { accountName := "beta".data, newUsername := "newu".data, newPassword := "  ".data }
        ["Trade_Name_2=\"Beta\"\n".data, "GST_UserID_2=\"u0\"\n".data,
         "GST_PSSWD_2=\"p0\"\n".data]) =
    keyLines (passStem ++ natToDigits 2)
      ["Trade_Name_2=\"Beta\"\n".data, "GST_UserID_2=\"u0\"\n".data,
       "GST_PSSWD_2=\"p0\"\n".data] :=
  (c6_partial_update_frame
    { accountName := "beta".data, newUsername := "newu".data, newPassword := "  ".data }
    ["Trade_Name_2=\"Beta\"\n".data, "GST_UserID_2=\"u0\"\n".data,
     "GST_PSSWD_2=\"p0\"\n".data] 2 (by decide)).1 (by decide)

/-! ## Normalization lemmas for claim C3 -/

/-- Characters that are not Python whitespace are not the space character. -/
theorem bne_space_of_not_pySpace {a : Char} (h : isPySpace a = false) : (a != ' ') = true := by
  simp only [bne_iff_ne, ne_eq]
  intro he
  subst he
  exact absurd h (by decide)

/-- A satisfying head survives `filter` as the head. -/
theorem head_filter_of_head {p : Char → Bool} {l : Chars} {a : Char}
    (hh : l.head? = some a) (hp : p a = true) : (l.filter p).head? = some a := by
  cases l with
  | nil => simp at hh
  | cons b t =>
    have hb : b = a := by simpa using hh
    subst hb
    rw [List.filter_cons_of_pos hp]
    rfl

/-- `head?` commutes with `map`. -/
theorem head?_map (f : Char → Char) (l : Chars) : (l.map f).head? = (l.head?).map f := by
  cases l <;> rfl

/-- `getLast?` commutes with `map`. -/
theorem getLast?_map (f : Char → Char) (l : Chars) :
    (l.map f).getLast? = (l.getLast?).map f := by
  rw [← List.head?_reverse, ← List.map_reverse, head?_map, List.head?_reverse]

/-- A satisfying last element survives `filter` as the last element. -/
theorem getLast_filter_of_getLast {p : Char → Bool} {l : Chars} {a : Char}
    (hh : l.getLast? = some a) (hp : p a = true) : (l.filter p).getLast? = some a := by
  rw [← List.head?_reverse] at hh
  rw [← List.head?_reverse, ← List.filter_reverse]
  exact head_filter_of_head hh hp

/-- The head of a normalized name is not whitespace. -/
theorem normalizeInput_head {s : Chars} {c : Char}
    (h : (normalizeInput s).head? = some c) : isPySpace c = false := by
  unfold normalizeInput upperAll removeSpaces at h
  cases hl : stripList s with
  | nil => rw [hl] at h; simp at h
  | cons a t =>
    have ha : isPySpace a = false := stripList_head_false (by rw [hl]; rfl)
    rw [hl, List.filter_cons_of_pos (p := fun c => c != ' ') (bne_space_of_not_pySpace ha),
      List.map_cons] at h
    have hc : c = upChar a := by simpa using h.symm
    rw [hc, isPySpace_upChar]
    exact ha

/-- The last character of a normalized name is not whitespace. -/
theorem normalizeInput_getLast {s : Chars} {c : Char}
    (h : (normalizeInput s).getLast? = some c) : isPySpace c = false := by
  unfold normalizeInput upperAll removeSpaces at h
  rw [getLast?_map] at h
  cases hls : (stripList s).getLast? with
  | none =>
    have hnil : stripList s = [] := by
      cases hc : stripList s with
      | nil => rfl
      | cons x xs =>
        rw [hc] at hls
        exact absurd hls (by simp)
    rw [hnil] at h
    simp at h
  | some b =>
    have hb : isPySpace b = false := stripList_getLast_false hls
    rw [getLast_filter_of_getLast hls (bne_space_of_not_pySpace hb)] at h
    have hc : c = upChar b := by simpa using h.symm
    rw [hc, isPySpace_upChar]
    exact hb

/-- Normalized names contain no spaces to remove. -/
theorem removeSpaces_normalizeInput (s : Chars) :
    removeSpaces (normalizeInput s) = normalizeInput s := by
  unfold normalizeInput upperAll removeSpaces
  rw [List.filter_map]
  have hco : ∀ x ∈ (stripList s).filter (fun c => c != ' '),
      ((fun c => c != ' ') ∘ upChar) x = (fun c => c != ' ') x := by
    intro x _
    show (upChar x != ' ') = (x != ' ')
    by_cases hx : x = ' '
    · subst hx
      decide
    · have hne : upChar x ≠ ' ' := fun he => hx ((upChar_eq_space_iff x).mp he)
      have h1 : (upChar x != ' ') = true := by simp [bne_iff_ne, hne]
      have h2 : (x != ' ') = true := by simp [bne_iff_ne, hx]
      rw [h1, h2]
  rw [List.filter_congr hco, List.filter_filter]
  exact congrArg (List.map upChar) (List.filter_congr (fun x _ => by rw [Bool.and_self]))

/-- Uppercasing a normalized name changes nothing. -/
theorem upperAll_normalizeInput (s : Chars) :
    upperAll (normalizeInput s) = normalizeInput s := by
  unfold normalizeInput upperAll
  rw [List.map_map]
  congr 1
  funext c
  exact upChar_upChar c

/-- Normalization is idempotent. -/
theorem normalizeInput_idem (s : Chars) :
    normalizeInput (normalizeInput s) = normalizeInput s := by
  have h1 : stripList (normalizeInput s) = normalizeInput s :=
    stripList_eq_self (fun c hc => normalizeInput_head hc)
      (fun c hc => normalizeInput_getLast hc)
  show upperAll (removeSpaces (stripList (normalizeInput s))) = normalizeInput s
  rw [h1, removeSpaces_normalizeInput, upperAll_normalizeInput]

/-- The variant relation of the amended claim C3: the second string is
obtained from the first by changing letter case and inserting or deleting
space characters. -/
inductive SpVar : Chars → Chars → Prop
  | nil : SpVar [] []
  | cons (c d : Char) {t u : Chars} (hcd : upChar c = upChar d) (h : SpVar t u) :
      SpVar (c :: t) (d :: u)
  | spL {t u : Chars} (h : SpVar t u) : SpVar (' ' :: t) u
  | spR {t u : Chars} (h : SpVar t u) : SpVar t (' ' :: u)

/-- Space-and-case variants normalize identically. -/
theorem spVar_norm {t u : Chars} (h : SpVar t u) :
    upperAll (removeSpaces t) = upperAll (removeSpaces u) := by
  induction h with
  | nil => rfl
  | cons c d hcd hsub ih =>
    by_cases hc : c = ' '
    · have hd : d = ' ' := by
        apply (upChar_eq_space_iff d).mp
        rw [← hcd, hc]
        decide
      rw [hc, hd]
      unfold removeSpaces upperAll at ih ⊢
      rw [List.filter_cons_of_neg (by simp), List.filter_cons_of_neg (by simp)]
      exact ih
    · have hd : d ≠ ' ' := by
        intro he
        subst he
        have hsp : upChar c = ' ' := by rw [hcd]; decide
        exact hc ((upChar_eq_space_iff c).mp hsp)
      unfold removeSpaces upperAll at ih ⊢
      rw [List.filter_cons_of_pos (by simp [hc]), List.filter_cons_of_pos (by simp [hd]),
        List.map_cons, List.map_cons, hcd, ih]
  | spL hsub ih =>
    unfold removeSpaces upperAll at ih ⊢
    rw [List.filter_cons_of_neg (by simp)]
    exact ih
  | spR hsub ih =>
    unfold removeSpaces upperAll at ih ⊢
    rw [List.filter_cons_of_neg (by simp)]
    exact ih

/-- The frozen claim's variant relation, with general whitespace: erasing all
whitespace characters and uppercasing gives the same text. -/
def caseWsVariant (t u : Chars) : Bool :=
  decide (upperAll (t.filter (fun c => !isPySpace c)) =
    upperAll (u.filter (fun c => !isPySpace c)))

/-- C3 counterexample: with `Acme Co` stored at index 1, the input differing
from it only in whitespace — an internal tab instead of the space — does not
resolve at all, because the code removes only space characters
(`replace(" ", "")`), never other whitespace. -/
theorem c3_counterexample :
    caseWsVariant "Acme Co".data "Acme\tCo".data = true ∧
    resolveName ["Trade_Name_1=\"Acme Co\"\n".data] "Acme Co".data = some 1 ∧
    resolveName ["Trade_Name_1=\"Acme Co\"\n".data] "Acme\tCo".data = none := by
  refine ⟨by decide, by decide, by decide⟩

/-- C3 (amended): resolution is insensitive to letter casing and to space
characters — any input whose stripped form is a space-and-case variant of
the stored name's stripped form resolves identically — and normalization is
idempotent. Internal whitespace other than the space character is not
normalized away (see the counterexample). -/
theorem c3_space_case_insensitive (lines : List Chars) (t u : Chars)
    (h : SpVar (stripList t) (stripList u)) :
    resolveName lines u = resolveName lines t ∧
    ∀ s : Chars, normalizeInput (normalizeInput s) = normalizeInput s := by
  constructor
  · unfold resolveName normalizeInput
    rw [show upperAll (removeSpaces (stripList u)) = upperAll (removeSpaces (stripList t)) from
      (spVar_norm h).symm]
  · exact normalizeInput_idem

/-- C3 witness: `ACME co` resolves like the stored `Acme Co`. -/
theorem c3_witness :
    resolveName ["Trade_Name_1=\"Acme Co\"\n".data] "ACME co".data =
    resolveName ["Trade_Name_1=\"Acme Co\"\n".data] "Acme Co".data :=
  (c3_space_case_insensitive ["Trade_Name_1=\"Acme Co\"\n".data] "Acme Co".data "ACME co".data
    (show SpVar ['A', 'c', 'm', 'e', ' ', 'C', 'o'] ['A', 'C', 'M', 'E', ' ', 'c', 'o'] from
      SpVar.cons 'A' 'A' rfl (SpVar.cons 'c' 'C' (by decide) (SpVar.cons 'm' 'M' (by decide)
        (SpVar.cons 'e' 'E' (by decide) (SpVar.cons ' ' ' ' rfl
          (SpVar.cons 'C' 'c' (by decide) (SpVar.cons 'o' 'o' rfl SpVar.nil)))))))).1

/-! ## Lemmas for claim C5 -/

/-- Removing the wrapping quotes of a stored value recovers a name that does
not itself begin or end with a quote. -/
theorem stripQuotes_quoted {name : Chars} (hne : name ≠ [])
    (hq1 : name.head? ≠ some '"') (hq2 : name.getLast? ≠ some '"') :
    stripQuotes ('"' :: (name ++ ['"'])) = name := by
  obtain ⟨a, t, rfl⟩ : ∃ a t, name = a :: t := by
    cases name with
    | nil => exact absurd rfl hne
    | cons a t => exact ⟨a, t, rfl⟩
  have ha : a ≠ '"' := by
    intro he
    exact hq1 (by rw [he]; rfl)
  unfold stripQuotes
  rw [List.dropWhile_cons_of_pos (by decide)]
  rw [show (a :: t) ++ ['"'] = a :: (t ++ ['"']) from rfl]
  rw [List.dropWhile_cons_of_neg (by simp [ha])]
  rw [show (a :: (t ++ ['"'])).reverse = '"' :: (a :: t).reverse from by simp]
  rw [List.dropWhile_cons_of_pos (by decide)]
  rw [dropWhile_eq_self_of_head ?hh]
  · exact List.reverse_reverse _
  case hh =>
    intro x hx
    rw [List.head?_reverse] at hx
    have hxq : x ≠ '"' := by
      intro he
      exact hq2 (by rw [← he]; exact hx)
    exact beq_eq_false_iff_ne.mpr hxq

/-- Reading back the stored, quoted form of a sane trade name normalizes to
the same key as normalizing the entered name. -/
theorem normalizeStored_quoted {name : Chars} (hne : name ≠ [])
    (hq1 : name.head? ≠ some '"') (hq2 : name.getLast? ≠ some '"') :
    normalizeStored ('"' :: (name ++ ['"'])) = upperAll (removeSpaces name) := by
  unfold normalizeStored
  rw [stripList_eq_self ?h1 ?h2]
  · rw [stripQuotes_quoted hne hq1 hq2]
  case h1 =>
    intro c hc
    have hcq : c = '"' := by simpa using hc.symm
    subst hcq
    decide
  case h2 =>
    intro c hc
    have hgl : ('"' :: (name ++ ['"'])).getLast? = some '"' := by
      rw [show '"' :: (name ++ ['"']) = ('"' :: name) ++ ['"'] from by simp]
      exact List.getLast?_concat _
    rw [hgl] at hc
    have hcq : c = '"' := by simpa using hc.symm
    subst hcq
    decide

/-- The canonical `Trade_Name_<i>="value"` line parses to index `i` and the
quoted value. -/
theorem parse_stripped_envLine_trade (i : Nat) (value : Chars) :
    parseTradeLine (stripList (envLine (tradeStem ++ natToDigits i) value)) =
      some (i, '"' :: (value ++ ['"'])) := by
  rw [stripList_envLine (c := 'T')
    (show (tradeStem ++ natToDigits i).head? = some 'T' from rfl) (by decide)]
  rw [show (tradeStem ++ natToDigits i) ++ '=' :: '"' :: (value ++ ['"']) =
    tradeStem ++ natToDigits i ++ '=' :: ('"' :: (value ++ ['"'])) from by simp]
  exact parseTradeLine_key i _

/-- Updating a `GST_UserID_`/`GST_PSSWD_` key never changes the scan. -/
theorem gam_update_non_trade {key value : Chars} {c : Char} (hk : key.head? = some c)
    (hct : c ≠ 'T') (hcw : isPySpace c = false) (lines : List Chars) :
    get_account_mapping (update_env_variable key value lines) =
      get_account_mapping lines := by
  rw [update_env_eq]
  by_cases h : lines.any (matchesKey key) = true
  · rw [if_pos h]
    unfold get_account_mapping
    have hpt : ∀ l ∈ lines,
        parseTradeLine (stripList (if matchesKey key l then envLine key value else l)) =
        parseTradeLine (stripList l) := by
      intro l _
      by_cases hm : matchesKey key l = true
      · rw [if_pos hm, parse_envLine_none hk hct hcw, parse_none_of_matcher hk hct hm]
      · rw [if_neg hm]
    rw [foldl_scanStep_map hpt ([], 0)]
  · rw [if_neg h]
    unfold get_account_mapping
    rw [List.foldl_append]
    rw [show List.foldl scanStep (lines.foldl scanStep ([], 0)) [envLine key value] =
      lines.foldl scanStep ([], 0) from by
      show scanStep (lines.foldl scanStep ([], 0)) (envLine key value) = _
      unfold scanStep
      rw [parse_envLine_none hk hct hcw]]

/-- The running-next-index is unchanged after mapping the lines through an
index-preserving rewrite. -/
theorem gam_snd_map {f : Chars → Chars} {lines : List Chars}
    (h : ∀ l ∈ lines, (parseTradeLine (stripList (f l))).map Prod.fst =
      (parseTradeLine (stripList l)).map Prod.fst) :
    (get_account_mapping (lines.map f)).2 = (get_account_mapping lines).2 := by
  unfold get_account_mapping
  show (List.foldl scanStep ([], 0) (lines.map f)).2 + 1 =
    (List.foldl scanStep ([], 0) lines).2 + 1
  rw [foldl_scanStep_idx h ([], 0) ([], 0) rfl]

/-- Appending a trade line with an already-dominated index leaves the next
index unchanged. -/
theorem gam_snd_append_trade {lines : List Chars} {i : Nat} (value : Chars)
    (hile : i ≤ (lines.foldl scanStep ([], 0)).2) :
    (get_account_mapping (lines ++ [envLine (tradeStem ++ natToDigits i) value])).2 =
      (get_account_mapping lines).2 := by
  unfold get_account_mapping
  show ((lines ++ [envLine (tradeStem ++ natToDigits i) value]).foldl scanStep ([], 0)).2 + 1 =
    (lines.foldl scanStep ([], 0)).2 + 1
  rw [List.foldl_append]
  show (scanStep (lines.foldl scanStep ([], 0))
    (envLine (tradeStem ++ natToDigits i) value)).2 + 1 = _
  unfold scanStep
  rw [parse_stripped_envLine_trade]
  show max (lines.foldl scanStep ([], 0)).2 i + 1 = (lines.foldl scanStep ([], 0)).2 + 1
  rw [Nat.max_eq_left hile]

/-- After appending the canonical trade line for a sane name, the scan maps
the name's normalized key to that index. -/
theorem gam_lookup_append_trade {lines : List Chars} {n : Nat} {name : Chars}
    (hne : name ≠ []) (hq1 : name.head? ≠ some '"') (hq2 : name.getLast? ≠ some '"') :
    lookupA (get_account_mapping
        (lines ++ [envLine (tradeStem ++ natToDigits n) name])).1
      (upperAll (removeSpaces name)) = some n := by
  unfold get_account_mapping
  show lookupA ((lines ++ [envLine (tradeStem ++ natToDigits n) name]).foldl
      scanStep ([], 0)).1 (upperAll (removeSpaces name)) = some n
  rw [List.foldl_append]
  show lookupA (scanStep (lines.foldl scanStep ([], 0))
    (envLine (tradeStem ++ natToDigits n) name)).1 (upperAll (removeSpaces name)) = some n
  unfold scanStep
  rw [parse_stripped_envLine_trade]
  show lookupA (insertA (lines.foldl scanStep ([], 0)).1
    (normalizeStored ('"' :: (name ++ ['"']))) n) (upperAll (removeSpaces name)) = some n
  rw [normalizeStored_quoted hne hq1 hq2, lookupA_insertA, if_pos rfl]

/-- `chooseIdx` on a found name with a `yes` confirmation. -/
theorem chooseIdx_found {inp : AddInput} {st : List (Chars × Nat) × Nat} {norm : Chars}
    {i : Nat} (hfound : lookupA st.1 norm = some i)
    (hyes : lowerAll (stripList inp.confirm) = "yes".data) :
    chooseIdx inp st norm = some i := by
  unfold chooseIdx
  rw [hfound]
  show (if lowerAll (stripList inp.confirm) = "yes".data then some i else none) = some i
  rw [if_pos hyes]

/-- `chooseIdx` on an unknown name allocates the next index. -/
theorem chooseIdx_new {inp : AddInput} {st : List (Chars × Nat) × Nat} {norm : Chars}
    (hnone : lookupA st.1 norm = none) : chooseIdx inp st norm = some st.2 := by
  unfold chooseIdx
  rw [hnone]

/-- Unfolding a successful `add_new_account`. -/
theorem add_eq_of_chosen {inp : AddInput} {lines : List Chars} {i : Nat}
    (hname : stripList inp.tradeName ≠ [])
    (hch : chooseIdx inp (get_account_mapping lines)
      (upperAll (removeSpaces (stripList inp.tradeName))) = some i)
    (hu : stripList inp.username ≠ []) (hp : stripList inp.password ≠ []) :
    add_new_account inp lines =
      (update_env_variable (passStem ++ natToDigits i) (stripList inp.password)
        (update_env_variable (userStem ++ natToDigits i) (stripList inp.username)
          (update_env_variable (tradeStem ++ natToDigits i) (stripList inp.tradeName) lines)),
       some i) := by
  simp only [add_new_account]
  rw [if_neg hname, hch]
  show (if stripList inp.username = [] ∨ stripList inp.password = [] then (lines, none)
    else (update_env_variable (passStem ++ natToDigits i) (stripList inp.password)
      (update_env_variable (userStem ++ natToDigits i) (stripList inp.username)
        (update_env_variable (tradeStem ++ natToDigits i) (stripList inp.tradeName) lines)),
      some i)) = _
  rw [if_neg (by simp [hu, hp])]

/-- C5 counterexample: adding the trade name `"A` (which begins with a double
quote) to an empty store writes with the call-time next index 1, but the
index does not map to the new name in the subsequent scan — the re-read
strips the quotes, changing the normalized key, so the name no longer
resolves at all. -/
theorem c5_counterexample :
    (add_new_account
      { tradeName := "\"A".data, confirm := [], username := "u".data,
        password := "p".data } []).2 = some 1 ∧
    lookupA (get_account_mapping (add_new_account
      { tradeName := "\"A".data, confirm := [], username := "u".data,
        password := "p".data } []).1).1 (normalizeInput "\"A".data) = none := by
  exact ⟨by decide, by decide⟩

/-- C5 (amended): for an add that actually writes (non-blank stripped name,
username and password) and whose trade name neither begins nor ends with a
double quote (the quoted storage format cannot round-trip such names — see
the counterexample): if the normalized name is already stored with index
`i`, the write after a `yes` confirmation reuses `i` and the next available
index is unchanged; if the name is new, the write uses the next index
computed at call time, and resolving the entered name after the add returns
exactly that index. -/
theorem c5_upsert_index (inp : AddInput) (lines : List Chars)
    (hname : stripList inp.tradeName ≠ [])
    (huser : stripList inp.username ≠ []) (hpass : stripList inp.password ≠ [])
    (hq1 : (stripList inp.tradeName).head? ≠ some '"')
    (hq2 : (stripList inp.tradeName).getLast? ≠ some '"') :
    (∀ i, lookupA (get_account_mapping lines).1
        (upperAll (removeSpaces (stripList inp.tradeName))) = some i →
      lowerAll (stripList inp.confirm) = "yes".data →
      (add_new_account inp lines).2 = some i ∧
      (get_account_mapping (add_new_account inp lines).1).2 =
        (get_account_mapping lines).2) ∧
    (lookupA (get_account_mapping lines).1
        (upperAll (removeSpaces (stripList inp.tradeName))) = none →
      (add_new_account inp lines).2 = some (get_account_mapping lines).2 ∧
      resolveName (add_new_account inp lines).1 inp.tradeName =
        some (get_account_mapping lines).2) := by
  have hbase : ∀ (k : Chars) (j : Nat),
      lookupA ([] : List (Chars × Nat)) k = some j → j ≤ 0 := by
    intro k j hk
    simp [lookupA] at hk
  have hPhead : ∀ j : Nat, (passStem ++ natToDigits j).head? = some 'G' := fun _ => rfl
  have hUhead : ∀ j : Nat, (userStem ++ natToDigits j).head? = some 'G' := fun _ => rfl
  constructor
  · intro i hfound hyes
    have hadd := add_eq_of_chosen hname (chooseIdx_found hfound hyes) huser hpass
    rw [hadd]
    refine ⟨rfl, ?_⟩
    rw [gam_update_non_trade (hPhead i) (by decide) (by decide),
        gam_update_non_trade (hUhead i) (by decide) (by decide)]
    rw [update_env_eq]
    by_cases hmatch : lines.any (matchesKey (tradeStem ++ natToDigits i)) = true
    · rw [if_pos hmatch]
      apply gam_snd_map
      intro l _
      by_cases hm : matchesKey (tradeStem ++ natToDigits i) l = true
      · rw [if_pos hm]
        obtain ⟨v, hv⟩ := matchesKey_trade_parse hm
        rw [hv, parse_stripped_envLine_trade]
        rfl
      · rw [if_neg hm]
    · rw [if_neg hmatch]
      exact gam_snd_append_trade (stripList inp.tradeName)
        (foldl_scanStep_lookup_le lines ([], 0) hbase _ i hfound)
  · intro hnone
    have hadd := add_eq_of_chosen hname (chooseIdx_new hnone) huser hpass
    have hnomatch : lines.any
        (matchesKey (tradeStem ++ natToDigits (get_account_mapping lines).2)) = false := by
      rcases hb : lines.any
          (matchesKey (tradeStem ++ natToDigits (get_account_mapping lines).2)) with _ | _
      · rfl
      · exfalso
        obtain ⟨l, hl, hm⟩ := List.any_eq_true.mp hb
        obtain ⟨v, hv⟩ := matchesKey_trade_parse hm
        have hle := parse_member_le lines ([], 0) l hl _ v hv
        have h2 : (get_account_mapping lines).2 = (lines.foldl scanStep ([], 0)).2 + 1 := rfl
        omega
    have hupdT : update_env_variable
        (tradeStem ++ natToDigits (get_account_mapping lines).2)
        (stripList inp.tradeName) lines =
        lines ++ [envLine (tradeStem ++ natToDigits (get_account_mapping lines).2)
          (stripList inp.tradeName)] := by
      rw [update_env_eq, if_neg (by simp [hnomatch])]
    rw [hadd]
    refine ⟨rfl, ?_⟩
    unfold resolveName
    rw [gam_update_non_trade (hPhead (get_account_mapping lines).2) (by decide) (by decide),
        gam_update_non_trade (hUhead (get_account_mapping lines).2) (by decide) (by decide),
        hupdT]
    exact gam_lookup_append_trade hname hq1 hq2

/-- C5 witness: adding `Acme Co` to the empty store allocates index 1 and the
name resolves to it afterwards. -/
theorem c5_witness :
    (add_new_account
      { tradeName := " Acme Co ".data, confirm := [], username := "u1".data,
        password := "p1".data } []).2 = some 1 ∧
    resolveName (add_new_account
      { tradeName := " Acme Co ".data, confirm := [], username := "u1".data,
        password := "p1".data } []).1 " Acme Co ".data = some 1 :=
  (c5_upsert_index
    { tradeName := " Acme Co ".data, confirm := [], username := "u1".data,
      password := "p1".data } [] (by decide) (by decide) (by decide) (by decide)
    (by decide)).2 (by decide)

end GstLogin

